import Mathlib

/-!
Verification of the `urs` Unique Ring Signature package (Go) against its
natural-language specification.

Shallow embedding conventions:
* `math/big` integers (`*big.Int`) are modeled as `Int`; Go's `Mod` with a
  positive modulus is Euclidean and coincides with `Int.emod`.
* Byte slices are `List Nat` (each element a byte value).  `big.Int.Bytes`
  (minimal big-endian encoding of the absolute value) is `intBytes`,
  `big.Int.SetBytes` is `bytesToNat`.
* `crypto/elliptic.Curve` is an external trusted library; the package is
  generic over it.  It is modeled as a `Curve` record with the operations
  the package calls (`ScalarBaseMult`, `ScalarMult`, `Add`, `IsOnCurve`,
  the order `N` and `BitSize`), and the group laws a genuine elliptic
  curve implementation satisfies are collected in `CurveAxioms`.
* `crypto/sha256` is implemented concretely (`sha256`).
* Nillable slices (`[]*big.Int`) are `List (Option Int)`; run-time panics
  (nil dereference, index out of range) are explicit result values.
* Go `==` on `PublicKey` values is modeled as equality of the coordinate
  values.
-/

/-- Big-endian interpretation of a byte list, as in `big.Int.SetBytes`. -/
def bytesToNat (b : List Nat) : Nat := b.foldl (fun acc x => acc * 256 + x) 0

/-- Helper for `natToBytes`, with fuel for structural termination. -/
def natToBytesAux : Nat → Nat → List Nat
  | 0, _ => []
  | _ + 1, 0 => []
  | fuel + 1, n => natToBytesAux fuel (n / 256) ++ [n % 256]

/-- Minimal big-endian byte encoding of a natural number, as in
`big.Int.Bytes` (the empty list for `0`, no leading zero bytes). -/
def natToBytes (n : Nat) : List Nat := natToBytesAux n n

/-- Encoding of a `big.Int` by `Bytes()`: minimal big-endian bytes of the
absolute value. -/
def intBytes (i : Int) : List Nat := natToBytes i.natAbs

theorem bytesToNat_append_one (l : List Nat) (b : Nat) :
    bytesToNat (l ++ [b]) = bytesToNat l * 256 + b := by
  simp [bytesToNat, List.foldl_append]

theorem bytesToNat_natToBytesAux (fuel n : Nat) (h : n ≤ fuel) :
    bytesToNat (natToBytesAux fuel n) = n := by
  induction fuel generalizing n with
  | zero =>
    interval_cases n
    simp [natToBytesAux, bytesToNat]
  | succ f ih =>
    match n with
    | 0 => simp [natToBytesAux, bytesToNat]
    | m + 1 =>
      rw [show natToBytesAux (f + 1) (m + 1) =
          natToBytesAux f ((m + 1) / 256) ++ [(m + 1) % 256] from rfl]
      rw [bytesToNat_append_one, ih ((m + 1) / 256) (by omega)]
      omega

/-- Round trip: decoding the minimal big-endian encoding gives back the
number. -/
theorem bytesToNat_natToBytes (n : Nat) : bytesToNat (natToBytes n) = n :=
  bytesToNat_natToBytesAux n n (Nat.le_refl n)

theorem bytesToNat_intBytes (i : Int) (h : 0 ≤ i) :
    (bytesToNat (intBytes i) : Int) = i := by
  rw [intBytes, bytesToNat_natToBytes]
  omega

/-! ### SHA-256 (the `crypto/sha256` dependency, implemented concretely) -/

/-- Reduction of a natural number to a 32-bit word. -/
def w32 (n : Nat) : Nat := n % 4294967296

/-- Right rotation of a 32-bit word by `k` bits. -/
def rotr (k n : Nat) : Nat := w32 ((n >>> k) ||| (n <<< (32 - k)))

/-- SHA-256 `Ch` function. -/
def shaCh (x y z : Nat) : Nat := (x &&& y) ^^^ ((x ^^^ 4294967295) &&& z)

/-- SHA-256 `Maj` function. -/
def shaMaj (x y z : Nat) : Nat := (x &&& y) ^^^ (x &&& z) ^^^ (y &&& z)

/-- SHA-256 big sigma 0. -/
def bsig0 (x : Nat) : Nat := rotr 2 x ^^^ rotr 13 x ^^^ rotr 22 x

/-- SHA-256 big sigma 1. -/
def bsig1 (x : Nat) : Nat := rotr 6 x ^^^ rotr 11 x ^^^ rotr 25 x

/-- SHA-256 small sigma 0. -/
def ssig0 (x : Nat) : Nat := rotr 7 x ^^^ rotr 18 x ^^^ (x >>> 3)

/-- SHA-256 small sigma 1. -/
def ssig1 (x : Nat) : Nat := rotr 17 x ^^^ rotr 19 x ^^^ (x >>> 10)

/-- SHA-256 round constants. -/
def K64 : List Nat :=
  [1116352408, 1899447441, 3049323471, 3921009573,
   961987163, 1508970993, 2453635748, 2870763221,
   3624381080, 310598401, 607225278, 1426881987,
   1925078388, 2162078206, 2614888103, 3248222580,
   3835390401, 4022224774, 264347078, 604807628,
   770255983, 1249150122, 1555081692, 1996064986,
   2554220882, 2821834349, 2952996808, 3210313671,
   3336571891, 3584528711, 113926993, 338241895,
   666307205, 773529912, 1294757372, 1396182291,
   1695183700, 1986661051, 2177026350, 2456956037,
   2730485921, 2820302411, 3259730800, 3345764771,
   3516065817, 3600352804, 4094571909, 275423344,
   430227734, 506948616, 659060556, 883997877,
   958139571, 1322822218, 1537002063, 1747873779,
   1955562222, 2024104815, 2227730452, 2361852424,
   2428436474, 2756734187, 3204031479, 3329325298]

/-- State of the SHA-256 compression function: eight 32-bit words. -/
structure H8 where
  a : Nat
  b : Nat
  c : Nat
  d : Nat
  e : Nat
  f : Nat
  g : Nat
  h : Nat

/-- One SHA-256 compression round. -/
def shaStep (st : H8) (k w : Nat) : H8 :=
  let t1 := w32 (st.h + bsig1 st.e + shaCh st.e st.f st.g + k + w)
  let t2 := w32 (bsig0 st.a + shaMaj st.a st.b st.c)
  ⟨w32 (t1 + t2), st.a, st.b, st.c, w32 (st.d + t1), st.e, st.f, st.g⟩

/-- Fixed-width big-endian byte encoding (width first argument). -/
def beBytes : Nat → Nat → List Nat
  | 0, _ => []
  | k + 1, n => beBytes k (n / 256) ++ [n % 256]

/-- Group a byte list into big-endian 32-bit words. -/
def toWords : List Nat → List Nat
  | b0 :: b1 :: b2 :: b3 :: rest =>
      (((b0 * 256 + b1) * 256 + b2) * 256 + b3) :: toWords rest
  | _ => []

/-- Extend the 16-word message schedule by `k` further words. -/
def extendW : Nat → List Nat → List Nat
  | 0, w => w
  | k + 1, w =>
      extendW k (w ++ [w32 (ssig1 (w.getD (w.length - 2) 0) +
        w.getD (w.length - 7) 0 + ssig0 (w.getD (w.length - 15) 0) +
        w.getD (w.length - 16) 0)])

/-- SHA-256 padding: append `0x80`, zeros, and the 64-bit message bit
length. -/
def padMsg (m : List Nat) : List Nat :=
  m ++ [128] ++ List.replicate ((64 - ((m.length + 9) % 64)) % 64) 0 ++
    beBytes 8 (m.length * 8)

/-- Split a byte list into 64-byte blocks (fuel for termination). -/
def blocks64 : Nat → List Nat → List (List Nat)
  | 0, _ => []
  | fuel + 1, l =>
      if l.length = 0 then [] else l.take 64 :: blocks64 fuel (l.drop 64)

/-- Process one 64-byte block. -/
def shaBlock (st : H8) (blk : List Nat) : H8 :=
  let w := extendW 48 (toWords blk)
  let c := (K64.zip w).foldl (fun s kw => shaStep s kw.1 kw.2) st
  ⟨w32 (st.a + c.a), w32 (st.b + c.b), w32 (st.c + c.c), w32 (st.d + c.d),
   w32 (st.e + c.e), w32 (st.f + c.f), w32 (st.g + c.g), w32 (st.h + c.h)⟩

/-- The SHA-256 digest (32 bytes) of a byte list. -/
def sha256 (m : List Nat) : List Nat :=
  let p := padMsg m
  let fin := (blocks64 p.length p).foldl shaBlock
    ⟨1779033703, 3144134277, 1013904242, 2773480762,
     1359893119, 2600822924, 528734635, 1541459225⟩
  beBytes 4 fin.a ++ beBytes 4 fin.b ++ beBytes 4 fin.c ++ beBytes 4 fin.d ++
    beBytes 4 fin.e ++ beBytes 4 fin.f ++ beBytes 4 fin.g ++ beBytes 4 fin.h

theorem beBytes_length (k n : Nat) : (beBytes k n).length = k := by
  induction k generalizing n with
  | zero => rfl
  | succ k ih => simp [beBytes, ih]

/-- Every SHA-256 digest is 32 bytes long. -/
theorem sha256_length (m : List Nat) : (sha256 m).length = 32 := by
  simp [sha256, beBytes_length]

/-- Sanity check of the SHA-256 implementation on the FIPS 180 test vector
for the message "abc". -/
theorem sha256_abc :
    sha256 [97, 98, 99] =
      [0xba, 0x78, 0x16, 0xbf, 0x8f, 0x01, 0xcf, 0xea,
       0x41, 0x41, 0x40, 0xde, 0x5d, 0xae, 0x22, 0x23,
       0xb0, 0x03, 0x61, 0xa3, 0x96, 0x17, 0x7a, 0x9c,
       0xb4, 0x10, 0xff, 0x61, 0xf2, 0x00, 0x15, 0xad] := by decide

/-! ### Data model (`urs.go`) -/

/-- A point with four integer components `(ax, ay, bx, by)`: one commitment
pair as fed into the challenge hash. -/
def I4 : Type := Int × Int × Int × Int

instance : DecidableEq I4 := by unfold I4; infer_instance

/-- The `crypto/elliptic.Curve` interface as used by the package: the group
order `N` (`Params().N`), the field bit size (`Params().BitSize`), and the
four operations the package calls.  Scalars are passed as big-endian byte
slices, exactly as in Go. -/
structure Curve where
  N : Int
  BitSize : Nat
  ScalarBaseMult : List Nat → Int × Int
  ScalarMult : Int → Int → List Nat → Int × Int
  Add : Int → Int → Int → Int → Int × Int
  IsOnCurve : Int → Int → Bool

/-- `PublicKey`: an ECDSA public key (the shared curve is passed
separately; Go embeds the same curve value in every key). -/
structure PublicKey where
  X : Int
  Y : Int
deriving DecidableEq

/-- `PrivateKey`: an ECDSA private key with its public part. -/
structure PrivateKey where
  pub : PublicKey
  D : Int
deriving DecidableEq

/-- `PublicKeyRing`: a list of public keys. -/
structure PublicKeyRing where
  Ring : List PublicKey
deriving DecidableEq

/-- `PublicKeyRing.Bytes`: concatenation of the minimal big-endian X and Y
bytes of the members, with no padding or length prefixes. -/
def ringBytes (R : PublicKeyRing) : List Nat :=
  (R.Ring.map (fun p => intBytes p.X ++ intBytes p.Y)).flatten

/-- `RingSign`: a ring signature.  `C` and `T` model Go's `[]*big.Int`, so
entries are optional (`none` is a nil pointer). -/
structure RingSign where
  Hsx : Int
  Hsy : Int
  C : List (Option Int)
  T : List (Option Int)
deriving DecidableEq

/-- `randFieldElement`: draw `BitSize/8 + 8` bytes from the reader (modeled
as a finite byte list), interpret big-endian, reduce mod `N-1` and add 1.
Returns the scalar and the unread remainder of the stream, or `none` when
the reader does not supply enough bytes (`io.ReadFull` error). -/
def randFieldElement (cv : Curve) (rand : List Nat) : Option (Int × List Nat) :=
  let cnt := cv.BitSize / 8 + 8
  if rand.length < cnt then none
  else some ((bytesToNat (rand.take cnt) : Int) % (cv.N - 1) + 1, rand.drop cnt)

/-- `GenerateKey`: draw a scalar and derive the public point. -/
def GenerateKey (cv : Curve) (rand : List Nat) : Option PrivateKey :=
  match randFieldElement cv rand with
  | none => none
  | some (k, _) =>
      some ⟨⟨(cv.ScalarBaseMult (intBytes k)).1, (cv.ScalarBaseMult (intBytes k)).2⟩, k⟩

/-- Fuel-based binary length of a natural number, as in `big.Int.BitLen`
(`bitLen 0 = 0`). -/
def bitLenAux : Nat → Nat → Nat
  | 0, _ => 0
  | _ + 1, 0 => 0
  | fuel + 1, n => bitLenAux fuel (n / 2) + 1

/-- Binary bit length of a natural number (`big.Int.BitLen`). -/
def bitLen (n : Nat) : Nat := bitLenAux n n

/-- `hashToInt`: truncate a hash to the byte length of the curve order and
shift out excess bits, following SECG/OpenSSL.  Defined in the source but
not called by `Sign` or `Verify`. -/
def hashToInt (hash : List Nat) (cv : Curve) : Int :=
  let orderBits := bitLen cv.N.natAbs
  let orderBytes := (orderBits + 7) / 8
  let hash2 := if hash.length > orderBytes then hash.take orderBytes else hash
  let ret := bytesToNat hash2
  let excess := hash2.length * 8 - orderBits
  if excess > 0 then (ret >>> excess : Nat) else ret

/-- `hashG`: hash the message with SHA-256 and multiply the base point by
the digest. -/
def hashG (cv : Curve) (m : List Nat) : Int × Int :=
  cv.ScalarBaseMult (sha256 m)

/-- `hashq`: the SHA-256 digest of the message. -/
def hashq (m : List Nat) : List Nat := sha256 m

/-! ### Sign -/

/-- Result of `Sign`: a signature, an error from the randomness reader, or
a run-time panic (nil dereference / index out of range). -/
inductive SignRes where
  | ok (rs : RingSign)
  | randErr
  | panic
deriving DecidableEq

/-- The commitment pair computed by `Sign` for a non-signer index `j`:
`a_j = g^{t_j} · y_j^{c_j}` and `b_j = H^{(D·c_j + t_j) mod N}`. -/
def commitFor (cv : Curve) (D hx hy : Int) (p : PublicKey) (c t : Int) : I4 :=
  let a1 := cv.ScalarBaseMult (intBytes t)
  let a2 := cv.ScalarMult p.X p.Y (intBytes c)
  let a := cv.Add a1.1 a1.2 a2.1 a2.2
  let w := (D * c + t) % cv.N
  let b := cv.ScalarMult hx hy (intBytes w)
  (a.1, a.2, b.1, b.2)

/-- The unblinded commitment pair at the signer's index: `a = g^r`,
`b = H^r`. -/
def idCommit (cv : Curve) (hx hy r : Int) : I4 :=
  let a := cv.ScalarBaseMult (intBytes r)
  let b := cv.ScalarMult hx hy (intBytes r)
  (a.1, a.2, b.1, b.2)

/-- Loop state of `Sign`: the unread randomness, the signer index found so
far (`var id int`, zero initialized), the running challenge sum, the
`(c_j, t_j)` slots and the commitment slots (`none` is a nil entry). -/
structure SignSt where
  rand : List Nat
  id : Nat
  sum : Int
  ct : List (Option (Int × Int))
  ab : List (Option I4)

/-- The per-index loop of `Sign`: at an index whose key equals the signer's
public key only `id` is updated; otherwise `c_j` and `t_j` are drawn and
the blinded commitments computed.  `none` is a randomness read error. -/
def signLoop (cv : Curve) (pub : PublicKey) (D hx hy : Int) :
    List PublicKey → Nat → SignSt → Option SignSt
  | [], _, st => some st
  | p :: rest, j, st =>
    if p = pub then
      signLoop cv pub D hx hy rest (j + 1)
        { st with id := j, ct := st.ct ++ [none], ab := st.ab ++ [none] }
    else
      match randFieldElement cv st.rand with
      | none => none
      | some (cj, r1) =>
        match randFieldElement cv r1 with
        | none => none
        | some (tj, r2) =>
          signLoop cv pub D hx hy rest (j + 1)
            { rand := r2, id := st.id, sum := st.sum + cj,
              ct := st.ct ++ [some (cj, tj)],
              ab := st.ab ++ [some (commitFor cv D hx hy p cj tj)] }

/-- Byte serialization of one commitment pair as appended to the challenge
hash input: `a.x ‖ a.y ‖ b.x ‖ b.y`, minimal big-endian each. -/
def i4Bytes (e : I4) : List Nat :=
  intBytes e.1 ++ intBytes e.2.1 ++ intBytes e.2.2.1 ++ intBytes e.2.2.2

/-- Serialize all commitment slots; `none` (a nil `*big.Int`) makes the
whole construction panic, reported as `none`. -/
def buildAB : List (Option I4) → Option (List Nat)
  | [] => some []
  | none :: _ => none
  | some e :: rest => (buildAB rest).map (fun tl => i4Bytes e ++ tl)

/-- The closing challenge `c_id = (h − Σ_{j≠id} c_j) mod N`, with `h` not
reduced beforehand (as in the source). -/
def challengeAtId (h sum N : Int) : Int := (h - sum) % N

/-- `Sign(rand, priv, R, m)`.  Follows `urs.go` line by line: the tag
`(hsx, hsy)` is computed from the private scalar before the loop; the loop
fills the non-signer slots; one more scalar `r` is drawn; the slot at `id`
gets the unblinded commitments (index out of range when the ring is empty
is a panic); the challenge hash closes the sum.  No membership check is
performed. -/
def Sign (cv : Curve) (rand : List Nat) (priv : PrivateKey)
    (R : PublicKeyRing) (m : List Nat) : SignRes :=
  let s := R.Ring.length
  let pub := priv.pub
  let mR := m ++ ringBytes R
  let hp := hashG cv mR
  let tau := cv.ScalarMult hp.1 hp.2 (intBytes priv.D)
  match signLoop cv pub priv.D hp.1 hp.2 R.Ring 0 ⟨rand, 0, 0, [], []⟩ with
  | none => .randErr
  | some st =>
    match randFieldElement cv st.rand with
    | none => .randErr
    | some (r, _) =>
      if st.id < s then
        let ab2 := st.ab.set st.id (some (idCommit cv hp.1 hp.2 r))
        match buildAB ab2 with
        | none => .panic
        | some abb =>
          let mRab := mR ++ abb
          let hmRab : Int := (bytesToNat (hashq mRab) : Int)
          let ci := challengeAtId hmRab st.sum cv.N
          let ti := (r - priv.D * ci) % cv.N
          let ct2 := st.ct.set st.id (some (ci, ti))
          .ok ⟨tau.1, tau.2, ct2.map (Option.map Prod.fst),
               ct2.map (Option.map Prod.snd)⟩
      else .panic

/-! ### Verify -/

/-- The commitment pair recomputed by `Verify` at index `j`:
`a_j = g^{t_j} · y_j^{c_j}` and `b_j = H^{t_j} · τ^{c_j}`. -/
def vCommit (cv : Curve) (hx hy tx ty : Int) (p : PublicKey) (c t : Int) : I4 :=
  let a1 := cv.ScalarBaseMult (intBytes t)
  let a2 := cv.ScalarMult p.X p.Y (intBytes c)
  let a := cv.Add a1.1 a1.2 a2.1 a2.2
  let b1 := cv.ScalarMult hx hy (intBytes t)
  let b2 := cv.ScalarMult tx ty (intBytes c)
  let b := cv.Add b1.1 b1.2 b2.1 b2.2
  (a.1, a.2, b.1, b.2)

/-- Result of the `Verify` loop: a panic (missing or nil slot), an early
`return false` (out-of-range scalar), or completion with the challenge sum
and recomputed commitments. -/
inductive VRes where
  | panic
  | rfalse
  | done (sum : Int) (ab : List I4)

/-- The per-index loop of `Verify`: index into `C` and `T` (panic when the
slice is short or the entry nil, matching Go), reject scalars `≥ N`, and
accumulate the recomputed commitments and the challenge sum. -/
def verifyLoop (cv : Curve) (hx hy tx ty : Int) (Cs Ts : List (Option Int)) :
    List PublicKey → Nat → Int → List I4 → VRes
  | [], _, sum, acc => .done sum acc
  | p :: rest, j, sum, acc =>
    match Cs[j]? with
    | none => .panic
    | some none => .panic
    | some (some cj) =>
      if cv.N ≤ cj then .rfalse
      else
        match Ts[j]? with
        | none => .panic
        | some none => .panic
        | some (some tj) =>
          if cv.N ≤ tj then .rfalse
          else verifyLoop cv hx hy tx ty Cs Ts rest (j + 1) (sum + cj)
            (acc ++ [vCommit cv hx hy tx ty p cj tj])

/-- Serialization of the recomputed commitments for the challenge hash. -/
def abBytes (l : List I4) : List Nat := (l.map i4Bytes).flatten

/-- The final acceptance comparison of `Verify`:
`(Σ c_j) mod N = h mod N`. -/
def acceptCheck (sum h N : Int) : Bool := sum % N == h % N

/-- `Verify(R, m, rs)`.  `some b` is a returned boolean, `none` a run-time
panic.  Follows `urs.go`: empty ring, zero or `≥ N` tag coordinates and an
off-curve tag are rejected; then the loop recomputes the commitments and
the challenge hash is compared against the challenge sum. -/
def Verify (cv : Curve) (R : PublicKeyRing) (m : List Nat)
    (rs : RingSign) : Option Bool :=
  let s := R.Ring.length
  if s = 0 then some false
  else
    let x := rs.Hsx
    let y := rs.Hsy
    if x = 0 ∨ y = 0 then some false
    else if cv.N ≤ x ∨ cv.N ≤ y then some false
    else if cv.IsOnCurve x y = false then some false
    else
      let mR := m ++ ringBytes R
      let hp := hashG cv mR
      match verifyLoop cv hp.1 hp.2 x y rs.C rs.T R.Ring 0 0 [] with
      | .panic => none
      | .rfalse => some false
      | .done sum ab =>
          some (acceptCheck sum (bytesToNat (hashq (mR ++ abBytes ab)) : Int) cv.N)

/-! ### Group laws of the curve adapter

The package is generic over the `elliptic.Curve` implementation; the laws
below are the properties a genuine prime-order elliptic curve adapter
satisfies (scalars act through their big-endian value, modulo the group
order, and the action is by a group homomorphism from the scalars). -/

/-- Scalar multiplication of the base point by a natural number scalar. -/
def kbase (cv : Curve) (k : Nat) : Int × Int := cv.ScalarBaseMult (natToBytes k)

/-- Scalar multiplication of a point by a natural number scalar. -/
def kmul (cv : Curve) (P : Int × Int) (k : Nat) : Int × Int :=
  cv.ScalarMult P.1 P.2 (natToBytes k)

/-- The point is on the curve. -/
def onC (cv : Curve) (P : Int × Int) : Prop := cv.IsOnCurve P.1 P.2 = true

/-- Group laws of a curve adapter: scalar bytes act through their value,
scalars act modulo the order `N`, multiplication composes, addition of two
multiples of a point is the multiple by the sum, and the operations stay
on the curve. -/
structure CurveAxioms (cv : Curve) : Prop where
  bytes_base : ∀ b, cv.ScalarBaseMult b = kbase cv (bytesToNat b)
  bytes_mul : ∀ x y b, cv.ScalarMult x y b = kmul cv (x, y) (bytesToNat b)
  base_mod : ∀ k, kbase cv k = kbase cv (k % cv.N.toNat)
  mul_mod : ∀ P k, onC cv P → kmul cv P k = kmul cv P (k % cv.N.toNat)
  mul_mul : ∀ P k l, onC cv P → kmul cv (kmul cv P k) l = kmul cv P (k * l)
  mul_base : ∀ k l, kmul cv (kbase cv k) l = kbase cv (k * l)
  add_mul : ∀ P k l, onC cv P →
    cv.Add (kmul cv P k).1 (kmul cv P k).2 (kmul cv P l).1 (kmul cv P l).2 =
      kmul cv P (k + l)
  add_base : ∀ k l,
    cv.Add (kbase cv k).1 (kbase cv k).2 (kbase cv l).1 (kbase cv l).2 =
      kbase cv (k + l)
  on_base : ∀ k, onC cv (kbase cv k)
  on_mul : ∀ P k, onC cv P → onC cv (kmul cv P k)

/-! ### A small concrete curve adapter for concrete evaluations

The cyclic group of order 5, with element `g` stored as the point
`(g+1, g+1)` and generator `1`.  Its order 5 differs from the range of the
stored coordinates `[1, 5]`, exactly as a curve's coordinate field differs
from its group order; the coordinate value 5 equals the order `N`. -/

/-- Encode a toy group element as a point. -/
def tEnc (g : Nat) : Int × Int := ((g : Int) + 1, (g : Int) + 1)

/-- Decode a toy point; `none` when the point is not on the toy curve. -/
def tDec (x y : Int) : Option Nat :=
  if 1 ≤ x ∧ x ≤ 5 ∧ y = x then some (x - 1).toNat else none

/-- The toy curve adapter: order 5, 8-bit field size. -/
def toyCurve : Curve where
  N := 5
  BitSize := 8
  ScalarBaseMult := fun b => tEnc (bytesToNat b % 5)
  ScalarMult := fun x y b =>
    match tDec x y with
    | some g => tEnc (g * bytesToNat b % 5)
    | none => (0, 0)
  Add := fun x1 y1 x2 y2 =>
    match tDec x1 y1, tDec x2 y2 with
    | some g, some h => tEnc ((g + h) % 5)
    | _, _ => (0, 0)
  IsOnCurve := fun x y => (tDec x y).isSome

theorem tEnc_fst (g : Nat) : (tEnc g).1 = (g : Int) + 1 := rfl

theorem tEnc_snd (g : Nat) : (tEnc g).2 = (g : Int) + 1 := rfl

theorem tDec_tEnc (g : Nat) (h : g < 5) :
    tDec (tEnc g).1 (tEnc g).2 = some g := by
  rw [tEnc_fst, tEnc_snd, tDec, if_pos ⟨by omega, by omega, rfl⟩]
  congr 1
  omega

theorem tDec_some {x y : Int} {g : Nat} (h : tDec x y = some g) :
    g < 5 ∧ x = (g : Int) + 1 ∧ y = (g : Int) + 1 := by
  simp only [tDec] at h
  split at h
  · rename_i hc
    injection h with h
    omega
  · exact absurd h (by simp)

theorem toy_SBM (b : List Nat) :
    toyCurve.ScalarBaseMult b = tEnc (bytesToNat b % 5) := rfl

theorem toy_SM_enc (g : Nat) (hg : g < 5) (b : List Nat) :
    toyCurve.ScalarMult (tEnc g).1 (tEnc g).2 b = tEnc (g * bytesToNat b % 5) := by
  show (match tDec (tEnc g).1 (tEnc g).2 with
    | some g => tEnc (g * bytesToNat b % 5)
    | none => ((0 : Int), (0 : Int))) = tEnc (g * bytesToNat b % 5)
  rw [tDec_tEnc g hg]

theorem toy_Add_enc (g h : Nat) (hg : g < 5) (hh : h < 5) :
    toyCurve.Add (tEnc g).1 (tEnc g).2 (tEnc h).1 (tEnc h).2 =
      tEnc ((g + h) % 5) := by
  show (match tDec (tEnc g).1 (tEnc g).2, tDec (tEnc h).1 (tEnc h).2 with
    | some g, some h => tEnc ((g + h) % 5)
    | _, _ => ((0 : Int), (0 : Int))) = tEnc ((g + h) % 5)
  rw [tDec_tEnc g hg, tDec_tEnc h hh]

theorem toy_kmul (g : Nat) (hg : g < 5) (k : Nat) :
    kmul toyCurve (tEnc g) k = tEnc (g * k % 5) := by
  rw [kmul, toy_SM_enc g hg, bytesToNat_natToBytes]

theorem toy_kbase (k : Nat) : kbase toyCurve k = tEnc (k % 5) := by
  rw [kbase, toy_SBM, bytesToNat_natToBytes]

theorem toy_on (g : Nat) (hg : g < 5) : onC toyCurve (tEnc g) := by
  show (tDec (tEnc g).1 (tEnc g).2).isSome = true
  rw [tDec_tEnc g hg]
  rfl

theorem toy_onC {P : Int × Int} (h : onC toyCurve P) :
    ∃ g, g < 5 ∧ P = tEnc g := by
  rw [onC] at h
  have h2 : (tDec P.1 P.2).isSome = true := h
  rw [Option.isSome_iff_exists] at h2
  obtain ⟨g, hg⟩ := h2
  obtain ⟨h5, hx, hy⟩ := tDec_some hg
  refine ⟨g, h5, ?_⟩
  have : P = (P.1, P.2) := rfl
  rw [this, hx, hy]
  rfl

theorem mod5_mod5 (a : Nat) : a % 5 % 5 = a % 5 := Nat.mod_mod_of_dvd a dvd_rfl

theorem mul_mod5_right (g k : Nat) : g * (k % 5) % 5 = g * k % 5 := by
  rw [Nat.mul_mod, mod5_mod5, ← Nat.mul_mod]

theorem mod5_mul (g k l : Nat) : g * k % 5 * l % 5 = g * (k * l) % 5 := by
  rw [Nat.mul_mod, mod5_mod5, ← Nat.mul_mod, Nat.mul_assoc]

theorem mod5_add (a b : Nat) : (a % 5 + b % 5) % 5 = (a + b) % 5 :=
  (Nat.add_mod a b 5).symm

theorem toy_N_toNat : toyCurve.N.toNat = 5 := rfl

/-- The toy adapter satisfies the curve group laws. -/
theorem toyCurveAxioms : CurveAxioms toyCurve := by
  constructor
  · intro b
    rw [toy_SBM, toy_kbase]
  · intro x y b
    rw [kmul]
    show toyCurve.ScalarMult x y b = toyCurve.ScalarMult x y (natToBytes (bytesToNat b))
    show (match tDec x y with
      | some g => tEnc (g * bytesToNat b % 5)
      | none => ((0 : Int), (0 : Int))) = (match tDec x y with
      | some g => tEnc (g * bytesToNat (natToBytes (bytesToNat b)) % 5)
      | none => ((0 : Int), (0 : Int)))
    rw [bytesToNat_natToBytes]
  · intro k
    rw [toy_kbase, toy_kbase, toy_N_toNat, mod5_mod5]
  · intro P k hP
    obtain ⟨g, hg, rfl⟩ := toy_onC hP
    rw [toy_kmul g hg, toy_kmul g hg, toy_N_toNat, mul_mod5_right]
  · intro P k l hP
    obtain ⟨g, hg, rfl⟩ := toy_onC hP
    rw [toy_kmul g hg, toy_kmul _ (Nat.mod_lt _ (by norm_num)),
      toy_kmul g hg, mod5_mul]
  · intro k l
    rw [toy_kbase, toy_kmul _ (Nat.mod_lt _ (by norm_num)), toy_kbase,
      Nat.mul_mod, mod5_mod5, ← Nat.mul_mod]
  · intro P k l hP
    obtain ⟨g, hg, rfl⟩ := toy_onC hP
    rw [toy_kmul g hg, toy_kmul g hg,
      toy_Add_enc _ _ (Nat.mod_lt _ (by norm_num)) (Nat.mod_lt _ (by norm_num)),
      mod5_add, ← Nat.mul_add, toy_kmul g hg]
  · intro k l
    rw [toy_kbase, toy_kbase,
      toy_Add_enc _ _ (Nat.mod_lt _ (by norm_num)) (Nat.mod_lt _ (by norm_num)),
      mod5_add, toy_kbase]
  · intro k
    rw [toy_kbase]
    exact toy_on _ (Nat.mod_lt _ (by norm_num))
  · intro P k hP
    obtain ⟨g, hg, rfl⟩ := toy_onC hP
    rw [toy_kmul g hg]
    exact toy_on _ (Nat.mod_lt _ (by norm_num))

/-- Extract the signature from a successful `Sign` result (with a default
for the other cases). -/
def getOkSig : SignRes → RingSign → RingSign
  | .ok rs, _ => rs
  | _, d => d

/-- Whether a `Sign` result is a signature (rather than an error or a
panic). -/
def SignRes.isOk : SignRes → Bool
  | .ok _ => true
  | _ => false

/-- Run `Sign` and, when it returns a signature, run `Verify` on it. -/
def signThenVerify (cv : Curve) (rand : List Nat) (priv : PrivateKey)
    (R : PublicKeyRing) (m : List Nat) : Option (Option Bool) :=
  match Sign cv rand priv R m with
  | .ok rs => some (Verify cv R m rs)
  | _ => none

/-! ### Claim C8: the scalar sampler -/

/-- A stub adapter carrying the parameters of NIST P-521 (group order and
field bit size); `randFieldElement` reads only these two fields. -/
def p521Stub : Curve where
  N := 6864797660130609714981900799081393217269435300143305409394463459185543183397655394245057746333217197532963996371363321113864768612440380340372808892707005449
  BitSize := 521
  ScalarBaseMult := fun _ => (0, 0)
  ScalarMult := fun _ _ _ => (0, 0)
  Add := fun _ _ _ _ => (0, 0)
  IsOnCurve := fun _ _ => false

/-- Claim C8, counterexample: the claim says `randFieldElement` reads
`ceil(BitSize/8) + 8` bytes and errors exactly when the reader supplies
fewer.  On P-521 parameters that is 74 bytes, but the code reads
`BitSize/8 + 8 = 73` bytes (integer division), so a 73-byte reader — fewer
bytes than the claim's request — succeeds without error. -/
theorem randFieldElement_ceil_counterexample :
    (List.replicate 73 0).length < (p521Stub.BitSize + 7) / 8 + 8 ∧
    (randFieldElement p521Stub (List.replicate 73 0)).isSome = true := by
  exact ⟨by decide, by decide⟩

/-- Claim C8 (amended): for a curve of order at least 2,
`randFieldElement` reads `BitSize/8 + 8` bytes — integer division, which
is `ceil(BitSize/8) + 8` only when `BitSize` is a multiple of 8 —
interprets them big-endian, reduces mod `N−1` and adds 1, so the result
lies in `[1, N−1]`; it errors exactly when the reader supplies fewer than
`BitSize/8 + 8` bytes. -/
theorem randFieldElement_spec (cv : Curve) (rand : List Nat) (hN : 2 ≤ cv.N) :
    (rand.length < cv.BitSize / 8 + 8 → randFieldElement cv rand = none) ∧
    (cv.BitSize / 8 + 8 ≤ rand.length →
      randFieldElement cv rand =
        some ((bytesToNat (rand.take (cv.BitSize / 8 + 8)) : Int) % (cv.N - 1) + 1,
          rand.drop (cv.BitSize / 8 + 8))) ∧
    (∀ k rest, randFieldElement cv rand = some (k, rest) →
      1 ≤ k ∧ k ≤ cv.N - 1) := by
  refine ⟨fun h => by rw [randFieldElement, if_pos h],
    fun h => by rw [randFieldElement, if_neg (by omega)], ?_⟩
  intro k rest h
  rw [randFieldElement] at h
  split at h
  · exact absurd h (by simp)
  · have h2 := (Option.some.injEq _ _).mp h
    have hk : k = (bytesToNat (rand.take (cv.BitSize / 8 + 8)) : Int) % (cv.N - 1) + 1 := by
      have := congrArg Prod.fst h2
      simpa using this.symm
    have hpos : (0 : Int) < cv.N - 1 := by omega
    have hnn := Int.emod_nonneg (bytesToNat (rand.take (cv.BitSize / 8 + 8)) : Int)
      (by omega : (cv.N - 1 : Int) ≠ 0)
    have hlt := Int.emod_lt_of_pos (bytesToNat (rand.take (cv.BitSize / 8 + 8)) : Int) hpos
    omega

/-- Claim C8, witness: on the toy curve (order 5, `BitSize` 8) a 9-byte
reader succeeds with a scalar in `[1, 4]` and an 8-byte reader errors. -/
theorem randFieldElement_spec_witness :
    randFieldElement toyCurve (List.replicate 8 3) = none ∧
    randFieldElement toyCurve (List.replicate 9 3) =
      some ((bytesToNat ((List.replicate 9 3).take 9) : Int) % (5 - 1) + 1,
        (List.replicate 9 3).drop 9) := by
  have h := randFieldElement_spec toyCurve (List.replicate 8 3) (by decide)
  have h2 := randFieldElement_spec toyCurve (List.replicate 9 3) (by decide)
  exact ⟨h.1 (by decide), h2.2.1 (by decide)⟩

/-! ### Claim C9: reduction points of the challenge -/

/-- Claim C9: the closing challenge `c_id = (h − Σ c_j) mod N` computed by
`Sign` from the unreduced hash integer `h` equals the value computed from
`h mod N`, and `Verify`'s acceptance comparison `(Σ c_j) mod N = h mod N`
gives the same verdict whether or not `h` is reduced first. -/
theorem challenge_reduction_invariant (h sum N : Int) :
    challengeAtId h sum N = challengeAtId (h % N) sum N ∧
    acceptCheck sum h N = acceptCheck sum (h % N) N := by
  constructor
  · rw [challengeAtId, challengeAtId]
    conv_rhs => rw [Int.sub_emod, Int.emod_emod_of_dvd h dvd_rfl]
    rw [Int.sub_emod]
  · rw [acceptCheck, acceptCheck, Int.emod_emod_of_dvd h dvd_rfl]

/-! ### Claim C10: the unused `hashToInt` equals the inline raw digest -/

/-- A stub adapter whose group order has bit length exactly 256, as for
the P-256 order; only `N` is read by `hashToInt`. -/
def order256Stub : Curve where
  N := (2 : Int) ^ 255
  BitSize := 256
  ScalarBaseMult := fun _ => (0, 0)
  ScalarMult := fun _ _ _ => (0, 0)
  Add := fun _ _ _ _ => (0, 0)
  IsOnCurve := fun _ _ => false

theorem bitLenAux_le (fuel n : Nat) : bitLenAux fuel n ≤ fuel := by
  induction fuel generalizing n with
  | zero => simp [bitLenAux]
  | succ f ih =>
    match n with
    | 0 => simp [bitLenAux]
    | m + 1 =>
      rw [show bitLenAux (f + 1) (m + 1) = bitLenAux f ((m + 1) / 2) + 1 from rfl]
      have := ih ((m + 1) / 2)
      omega

/-- Claim C10: for a curve whose order has bit length 256, the raw
`SetBytes(hashq(x))` used inline by `Sign` and `Verify` equals
`hashToInt(hashq(x), curve)`: the 32-byte SHA-256 digest is neither
truncated nor shifted. -/
theorem hashToInt_eq_raw (cv : Curve) (x : List Nat)
    (hbl : bitLen cv.N.natAbs = 256) :
    hashToInt (hashq x) cv = (bytesToNat (hashq x) : Int) := by
  have hlen : (hashq x).length = 32 := sha256_length x
  simp only [hashToInt, hbl]
  have h1 : (if (hashq x).length > (256 + 7) / 8 then List.take ((256 + 7) / 8) (hashq x)
      else hashq x) = hashq x := if_neg (by omega)
  rw [h1, if_neg (by omega)]

set_option maxRecDepth 10000 in
/-- Claim C10, witness: concrete evaluation on the empty message and the
stub adapter of order `2^255`. -/
theorem hashToInt_eq_raw_witness :
    hashToInt (hashq []) order256Stub = (bytesToNat (hashq []) : Int) :=
  hashToInt_eq_raw order256Stub [] (by decide)

/-! ### Claim C5: Verify panics on short or nil scalar vectors -/

/-- Claim C5 fails on the code: with a one-member ring and a signature
whose `C` and `T` slices are empty, `Verify` reaches `rs.C[0]` and panics
with an index out of range (`none`) instead of returning `false`.  The
tag `(1, 1)` passes every check before the loop, so the panic is the
first effect. -/
theorem verify_short_vectors_panic :
    Verify toyCurve ⟨[⟨2, 2⟩]⟩ [] ⟨1, 1, [], []⟩ = none := by decide

/-! ### Claim C2: Sign performs no membership or emptiness check -/

/-- Claim C2 fails on the code: `Sign` has no membership check.  With a
nonempty ring not containing the signer's key and sufficient randomness it
returns a signature and no error (the slot of index 0 is simply
overwritten), and with an empty ring it panics (index out of range at
`ax[id]`) instead of returning an error. -/
theorem sign_no_membership_check :
    ((⟨⟨2, 2⟩, 1⟩ : PrivateKey).pub ∉ ([⟨3, 3⟩] : List PublicKey)) ∧
    (Sign toyCurve (List.replicate 27 1) ⟨⟨2, 2⟩, 1⟩ ⟨[⟨3, 3⟩]⟩ [0]).isOk = true ∧
    Sign toyCurve (List.replicate 9 1) ⟨⟨2, 2⟩, 1⟩ ⟨[]⟩ [0] = .panic := by
  refine ⟨by decide, by decide, by decide⟩

/-! ### Claim C6: Verify rejects malformed inputs -/

theorem verifyLoop_bad (cv : Curve) (hx hy tx ty : Int) (Cs Ts : List (Option Int)) :
    ∀ (L : List PublicKey) (j : Nat) (sum : Int) (acc : List I4),
      (∀ i, i < L.length →
        (∃ v, Cs[j + i]? = some (some v)) ∧ (∃ v, Ts[j + i]? = some (some v))) →
      (∃ i, i < L.length ∧ ((∃ v, Cs[j + i]? = some (some v) ∧ cv.N ≤ v) ∨
        (∃ v, Ts[j + i]? = some (some v) ∧ cv.N ≤ v))) →
      verifyLoop cv hx hy tx ty Cs Ts L j sum acc = .rfalse := by
  intro L
  induction L with
  | nil =>
    intro j sum acc _ hbad
    obtain ⟨i, hi, _⟩ := hbad
    simp at hi
  | cons p rest ih =>
    intro j sum acc hwf hbad
    obtain ⟨⟨c, hc⟩, ⟨t, ht⟩⟩ := hwf 0 (by simp)
    rw [Nat.add_zero] at hc ht
    simp only [verifyLoop, hc]
    by_cases hcN : cv.N ≤ c
    · rw [if_pos hcN]
    · rw [if_neg hcN]
      simp only [ht]
      by_cases htN : cv.N ≤ t
      · rw [if_pos htN]
      · rw [if_neg htN]
        apply ih (j + 1)
        · intro i hi
          have heq : j + 1 + i = j + (i + 1) := by omega
          rw [heq]
          exact hwf (i + 1) (by simpa using hi)
        · obtain ⟨i, hi, hcase⟩ := hbad
          match i with
          | 0 =>
            rw [Nat.add_zero] at hcase
            rcases hcase with ⟨v, hv, hvN⟩ | ⟨v, hv, hvN⟩
            · rw [hc] at hv
              injection hv with hv
              injection hv with hv
              omega
            · rw [ht] at hv
              injection hv with hv
              injection hv with hv
              omega
          | i2 + 1 =>
            refine ⟨i2, by simpa using hi, ?_⟩
            have heq : j + 1 + i2 = j + (i2 + 1) := by omega
            rw [heq]
            exact hcase

/-- Claim C6: on a signature whose `C` and `T` entries are all present up
to the ring length, `Verify` returns `false` whenever the ring is empty,
a tag coordinate is zero or at least `N`, the tag is off the curve, or
some `c_j` or `t_j` is at least `N`. -/
theorem verify_rejects (cv : Curve) (R : PublicKeyRing) (m : List Nat) (rs : RingSign)
    (hwf : ∀ i, i < R.Ring.length →
      (∃ v, rs.C[i]? = some (some v)) ∧ (∃ v, rs.T[i]? = some (some v)))
    (hbad : R.Ring = [] ∨ rs.Hsx = 0 ∨ rs.Hsy = 0 ∨ cv.N ≤ rs.Hsx ∨ cv.N ≤ rs.Hsy ∨
      cv.IsOnCurve rs.Hsx rs.Hsy = false ∨
      (∃ i, i < R.Ring.length ∧ ((∃ v, rs.C[i]? = some (some v) ∧ cv.N ≤ v) ∨
        (∃ v, rs.T[i]? = some (some v) ∧ cv.N ≤ v)))) :
    Verify cv R m rs = some false := by
  simp only [Verify]
  by_cases h0 : R.Ring.length = 0
  · rw [if_pos h0]
  · rw [if_neg h0]
    by_cases h1 : rs.Hsx = 0 ∨ rs.Hsy = 0
    · rw [if_pos h1]
    · rw [if_neg h1]
      by_cases h2 : cv.N ≤ rs.Hsx ∨ cv.N ≤ rs.Hsy
      · rw [if_pos h2]
      · rw [if_neg h2]
        by_cases h3 : cv.IsOnCurve rs.Hsx rs.Hsy = false
        · rw [if_pos h3]
        · rw [if_neg h3]
          have hb : ∃ i, i < R.Ring.length ∧
              ((∃ v, rs.C[i]? = some (some v) ∧ cv.N ≤ v) ∨
               (∃ v, rs.T[i]? = some (some v) ∧ cv.N ≤ v)) := by
            rcases hbad with h | h | h | h | h | h | h
            · exact absurd (congrArg List.length h) (by simpa using h0)
            · exact absurd (Or.inl h) h1
            · exact absurd (Or.inr h) h1
            · exact absurd (Or.inl h) h2
            · exact absurd (Or.inr h) h2
            · exact absurd h h3
            · exact h
          rw [verifyLoop_bad cv _ _ _ _ rs.C rs.T R.Ring 0 0 []
            (by intro i hi; rw [Nat.zero_add]; exact hwf i hi)
            (by obtain ⟨i, hi, hc⟩ := hb; exact ⟨i, hi, by rw [Nat.zero_add]; exact hc⟩)]

/-- Claim C6, witness: a one-member toy ring with `c_0 = 7 ≥ N = 5` is
rejected. -/
theorem verify_rejects_witness :
    Verify toyCurve ⟨[⟨2, 2⟩]⟩ [] ⟨1, 1, [some 7], [some 0]⟩ = some false := by
  apply verify_rejects
  · intro i hi
    have hi2 : i < 1 := hi
    interval_cases i
    exact ⟨⟨7, rfl⟩, ⟨0, rfl⟩⟩
  · exact Or.inr (Or.inr (Or.inr (Or.inr (Or.inr (Or.inr
      ⟨0, by decide, Or.inl ⟨7, rfl, by decide⟩⟩)))))

/-! ### The signing loop invariant -/

/-- Bound on a successfully drawn scalar. -/
theorem randFE_bound {cv : Curve} {rand : List Nat} {k : Int} {rest : List Nat}
    (hN : 2 ≤ cv.N) (h : randFieldElement cv rand = some (k, rest)) :
    1 ≤ k ∧ k ≤ cv.N - 1 := by
  rw [randFieldElement] at h
  split at h
  · exact absurd h (by simp)
  · have h2 := (Option.some.injEq _ _).mp h
    have hk : k = (bytesToNat (rand.take (cv.BitSize / 8 + 8)) : Int) % (cv.N - 1) + 1 := by
      have := congrArg Prod.fst h2
      simpa using this.symm
    have hnn := Int.emod_nonneg (bytesToNat (rand.take (cv.BitSize / 8 + 8)) : Int)
      (by omega : (cv.N - 1 : Int) ≠ 0)
    have hlt := Int.emod_lt_of_pos (bytesToNat (rand.take (cv.BitSize / 8 + 8)) : Int)
      (by omega : (0 : Int) < cv.N - 1)
    omega

/-- Sum of the first components of the filled challenge slots. -/
def sumCT : List (Option (Int × Int)) → Int
  | [] => 0
  | none :: rest => sumCT rest
  | some p :: rest => p.1 + sumCT rest

/-- Full characterization of a completed signing loop: the slots extend the
incoming state by one entry per ring member; a slot is nil exactly at the
indices whose key equals the signer's public key; elsewhere it holds drawn
scalars in `[1, N−1]` and the blinded commitments; the running sum adds the
drawn challenges; and `id` becomes the offset of the last matching index
(or is unchanged when there is no match). -/
theorem signLoop_spec (cv : Curve) (pub : PublicKey) (D hx hy : Int) :
    ∀ (L : List PublicKey) (j : Nat) (st st2 : SignSt),
      signLoop cv pub D hx hy L j st = some st2 →
      ∃ E F,
        st2.ct = st.ct ++ E ∧ st2.ab = st.ab ++ F ∧
        E.length = L.length ∧ F.length = L.length ∧
        st2.sum = st.sum + sumCT E ∧
        (∀ i, i < L.length →
          (L[i]? = some pub → E[i]? = some none ∧ F[i]? = some none) ∧
          (∀ p, L[i]? = some p → p ≠ pub →
            ∃ c t, E[i]? = some (some (c, t)) ∧
              (2 ≤ cv.N → 1 ≤ c ∧ c ≤ cv.N - 1 ∧ 1 ≤ t ∧ t ≤ cv.N - 1) ∧
              F[i]? = some (some (commitFor cv D hx hy p c t)))) ∧
        (pub ∉ L → st2.id = st.id) ∧
        (pub ∈ L → ∃ i, i < L.length ∧ L[i]? = some pub ∧ st2.id = j + i ∧
          ∀ i2, i < i2 → i2 < L.length → L[i2]? ≠ some pub) := by
  intro L
  induction L with
  | nil =>
    intro j st st2 h
    rw [signLoop] at h
    injection h with h
    subst h
    refine ⟨[], [], by simp, by simp, rfl, rfl, by simp [sumCT], ?_, fun _ => rfl, ?_⟩
    · intro i hi
      simp at hi
    · intro hm
      simp at hm
  | cons p rest ih =>
    intro j st st2 h
    rw [signLoop] at h
    by_cases hp : p = pub
    · rw [if_pos hp] at h
      obtain ⟨E1, F1, hct, hab, hlE, hlF, hsum, hidx, hnm, hm⟩ :=
        ih (j + 1) { st with id := j, ct := st.ct ++ [none], ab := st.ab ++ [none] } st2 h
      refine ⟨none :: E1, none :: F1, ?_, ?_, by simpa using hlE, by simpa using hlF,
        ?_, ?_, ?_, ?_⟩
      · rw [hct]
        show st.ct ++ [none] ++ E1 = st.ct ++ (none :: E1)
        rw [List.append_assoc]
        rfl
      · rw [hab]
        show st.ab ++ [none] ++ F1 = st.ab ++ (none :: F1)
        rw [List.append_assoc]
        rfl
      · rw [hsum]
        show st.sum + sumCT E1 = st.sum + sumCT (none :: E1)
        rw [show sumCT (none :: E1) = sumCT E1 from rfl]
      · intro i hi
        cases i with
        | zero =>
          constructor
          · intro _
            exact ⟨List.getElem?_cons_zero, List.getElem?_cons_zero⟩
          · intro p2 hp2 hne
            rw [List.getElem?_cons_zero] at hp2
            injection hp2 with hp2
            exact absurd (show p2 = pub by rw [← hp2]; exact hp) hne
        | succ i3 =>
          have hi3 : i3 < rest.length := by simpa using hi
          constructor
          · intro hg
            rw [List.getElem?_cons_succ] at hg
            have := (hidx i3 hi3).1 hg
            rw [List.getElem?_cons_succ, List.getElem?_cons_succ]
            exact this
          · intro p2 hp2 hne
            rw [List.getElem?_cons_succ] at hp2
            obtain ⟨c, t, hE, hb, hF⟩ := (hidx i3 hi3).2 p2 hp2 hne
            exact ⟨c, t, by rw [List.getElem?_cons_succ]; exact hE, hb,
              by rw [List.getElem?_cons_succ]; exact hF⟩
      · intro hnotm
        exact absurd (hp ▸ List.mem_cons_self p rest) hnotm
      · intro _
        by_cases hrest : pub ∈ rest
        · obtain ⟨i1, hi1, hget1, hid1, hlater1⟩ := hm hrest
          refine ⟨i1 + 1, by simpa using hi1, ?_, ?_, ?_⟩
          · rw [List.getElem?_cons_succ]
            exact hget1
          · rw [hid1]
            omega
          · intro i2 hgt hlen2
            cases i2 with
            | zero => omega
            | succ i3 =>
              rw [List.getElem?_cons_succ]
              exact hlater1 i3 (by omega) (by simpa using hlen2)
        · refine ⟨0, by simp, ?_, ?_, ?_⟩
          · rw [List.getElem?_cons_zero, hp]
          · rw [hnm hrest]
            show j = j + 0
            omega
          · intro i2 _ hlen2
            cases i2 with
            | zero => omega
            | succ i3 =>
              rw [List.getElem?_cons_succ]
              intro heq
              exact hrest (List.getElem?_mem heq)
    · rw [if_neg hp] at h
      cases heq1 : randFieldElement cv st.rand with
      | none =>
        simp only [heq1] at h
        exact absurd h (by simp)
      | some cr1 =>
        obtain ⟨cj, r1⟩ := cr1
        simp only [heq1] at h
        cases heq2 : randFieldElement cv r1 with
        | none =>
          simp only [heq2] at h
          exact absurd h (by simp)
        | some tr2 =>
          obtain ⟨tj, r2⟩ := tr2
          simp only [heq2] at h
          obtain ⟨E1, F1, hct, hab, hlE, hlF, hsum, hidx, hnm, hm⟩ :=
            ih (j + 1) ⟨r2, st.id, st.sum + cj, st.ct ++ [some (cj, tj)],
              st.ab ++ [some (commitFor cv D hx hy p cj tj)]⟩ st2 h
          refine ⟨some (cj, tj) :: E1, some (commitFor cv D hx hy p cj tj) :: F1,
            ?_, ?_, by simpa using hlE, by simpa using hlF, ?_, ?_, ?_, ?_⟩
          · rw [hct]
            show st.ct ++ [some (cj, tj)] ++ E1 = st.ct ++ (some (cj, tj) :: E1)
            rw [List.append_assoc]
            rfl
          · rw [hab]
            show st.ab ++ [some (commitFor cv D hx hy p cj tj)] ++ F1 =
              st.ab ++ (some (commitFor cv D hx hy p cj tj) :: F1)
            rw [List.append_assoc]
            rfl
          · rw [hsum]
            show st.sum + cj + sumCT E1 = st.sum + sumCT (some (cj, tj) :: E1)
            rw [show sumCT (some (cj, tj) :: E1) = cj + sumCT E1 from rfl]
            ring
          · intro i hi
            cases i with
            | zero =>
              constructor
              · intro hg
                rw [List.getElem?_cons_zero] at hg
                injection hg with hg
                exact absurd hg hp
              · intro p2 hp2 _
                rw [List.getElem?_cons_zero] at hp2
                injection hp2 with hp2
                subst hp2
                exact ⟨cj, tj, List.getElem?_cons_zero, fun hN =>
                  ⟨(randFE_bound hN heq1).1, (randFE_bound hN heq1).2,
                   (randFE_bound hN heq2).1, (randFE_bound hN heq2).2⟩,
                  List.getElem?_cons_zero⟩
            | succ i3 =>
              have hi3 : i3 < rest.length := by simpa using hi
              constructor
              · intro hg
                rw [List.getElem?_cons_succ] at hg
                have := (hidx i3 hi3).1 hg
                rw [List.getElem?_cons_succ, List.getElem?_cons_succ]
                exact this
              · intro p2 hp2 hne
                rw [List.getElem?_cons_succ] at hp2
                obtain ⟨c, t, hE, hb, hF⟩ := (hidx i3 hi3).2 p2 hp2 hne
                exact ⟨c, t, by rw [List.getElem?_cons_succ]; exact hE, hb,
                  by rw [List.getElem?_cons_succ]; exact hF⟩
          · intro hnotm
            have hrest : pub ∉ rest := fun hr => hnotm (List.mem_cons_of_mem p hr)
            exact hnm hrest
          · intro hmem
            have hrest : pub ∈ rest := by
              rcases List.mem_cons.mp hmem with heq | hr
              · exact absurd heq.symm hp
              · exact hr
            obtain ⟨i1, hi1, hget1, hid1, hlater1⟩ := hm hrest
            refine ⟨i1 + 1, by simpa using hi1, ?_, ?_, ?_⟩
            · rw [List.getElem?_cons_succ]
              exact hget1
            · rw [hid1]
              omega
            · intro i2 hgt hlen2
              cases i2 with
              | zero => omega
              | succ i3 =>
                rw [List.getElem?_cons_succ]
                exact hlater1 i3 (by omega) (by simpa using hlen2)

/-! ### Decomposition of a successful Sign -/

/-- The tag `τ = H(m‖R)^x` as a function of the key, ring and message
only. -/
def tagOf (cv : Curve) (priv : PrivateKey) (R : PublicKeyRing) (m : List Nat) :
    Int × Int :=
  cv.ScalarMult (hashG cv (m ++ ringBytes R)).1 (hashG cv (m ++ ringBytes R)).2
    (intBytes priv.D)

/-- The closing challenge and response pair written at the signer's
index. -/
def chalPair (cv : Curve) (priv : PrivateKey) (sum r : Int) (mRab : List Nat) :
    Int × Int :=
  let ci := challengeAtId (bytesToNat (hashq mRab) : Int) sum cv.N
  (ci, (r - priv.D * ci) % cv.N)

/-- A successful `Sign` run decomposes into a completed loop, one more
scalar draw, an in-range signer index, a fully built commitment
serialization, and the returned signature assembled from them. -/
theorem Sign_ok_decompose {cv : Curve} {rand : List Nat} {priv : PrivateKey}
    {R : PublicKeyRing} {m : List Nat} {rs : RingSign}
    (h : Sign cv rand priv R m = .ok rs) :
    ∃ st r rest abb,
      signLoop cv priv.pub priv.D (hashG cv (m ++ ringBytes R)).1
        (hashG cv (m ++ ringBytes R)).2 R.Ring 0 ⟨rand, 0, 0, [], []⟩ = some st ∧
      randFieldElement cv st.rand = some (r, rest) ∧
      st.id < R.Ring.length ∧
      buildAB (st.ab.set st.id (some (idCommit cv (hashG cv (m ++ ringBytes R)).1
        (hashG cv (m ++ ringBytes R)).2 r))) = some abb ∧
      rs = ⟨(tagOf cv priv R m).1, (tagOf cv priv R m).2,
        (st.ct.set st.id
          (some (chalPair cv priv st.sum r (m ++ ringBytes R ++ abb)))).map
            (Option.map Prod.fst),
        (st.ct.set st.id
          (some (chalPair cv priv st.sum r (m ++ ringBytes R ++ abb)))).map
            (Option.map Prod.snd)⟩ := by
  simp only [Sign] at h
  cases hloop : signLoop cv priv.pub priv.D (hashG cv (m ++ ringBytes R)).1
      (hashG cv (m ++ ringBytes R)).2 R.Ring 0 ⟨rand, 0, 0, [], []⟩ with
  | none =>
    simp only [hloop] at h
    exact SignRes.noConfusion h
  | some st =>
    simp only [hloop] at h
    cases hr : randFieldElement cv st.rand with
    | none =>
      simp only [hr] at h
      exact SignRes.noConfusion h
    | some rr =>
      obtain ⟨r, rest⟩ := rr
      simp only [hr] at h
      by_cases hid : st.id < R.Ring.length
      · rw [if_pos hid] at h
        cases hab : buildAB (st.ab.set st.id
            (some (idCommit cv (hashG cv (m ++ ringBytes R)).1
              (hashG cv (m ++ ringBytes R)).2 r))) with
        | none =>
          simp only [hab] at h
          exact SignRes.noConfusion h
        | some abb =>
          simp only [hab] at h
          injection h with h
          exact ⟨st, r, rest, abb, rfl, hr, hid, hab, h.symm⟩
      · rw [if_neg hid] at h
        exact SignRes.noConfusion h

/-! ### Claim C3: the tag is independent of the randomness -/

/-- Claim C3: two successful `Sign` runs on the same key, ring and message
with any two randomness streams return the same tag `(Hsx, Hsy)`: the tag
is computed from `(D, m, R)` before any randomness is read. -/
theorem sign_unique_tag (cv : Curve) (priv : PrivateKey) (R : PublicKeyRing)
    (m rand1 rand2 : List Nat) (rs1 rs2 : RingSign)
    (h1 : Sign cv rand1 priv R m = .ok rs1)
    (h2 : Sign cv rand2 priv R m = .ok rs2) :
    rs1.Hsx = rs2.Hsx ∧ rs1.Hsy = rs2.Hsy := by
  obtain ⟨_, _, _, _, _, _, _, _, he1⟩ := Sign_ok_decompose h1
  obtain ⟨_, _, _, _, _, _, _, _, he2⟩ := Sign_ok_decompose h2
  rw [he1, he2]
  exact ⟨rfl, rfl⟩

set_option maxRecDepth 100000 in
/-- Claim C3, witness: two toy runs with different randomness streams both
succeed and share the tag. -/
theorem sign_unique_tag_witness :
    (getOkSig (Sign toyCurve ((List.range 27).map (· + 1)) ⟨⟨2, 2⟩, 1⟩
        ⟨[⟨3, 3⟩, ⟨2, 2⟩]⟩ [8]) ⟨0, 0, [], []⟩).Hsx =
      (getOkSig (Sign toyCurve ((List.range 27).map (· + 100)) ⟨⟨2, 2⟩, 1⟩
        ⟨[⟨3, 3⟩, ⟨2, 2⟩]⟩ [8]) ⟨0, 0, [], []⟩).Hsx ∧
    (getOkSig (Sign toyCurve ((List.range 27).map (· + 1)) ⟨⟨2, 2⟩, 1⟩
        ⟨[⟨3, 3⟩, ⟨2, 2⟩]⟩ [8]) ⟨0, 0, [], []⟩).Hsy =
      (getOkSig (Sign toyCurve ((List.range 27).map (· + 100)) ⟨⟨2, 2⟩, 1⟩
        ⟨[⟨3, 3⟩, ⟨2, 2⟩]⟩ [8]) ⟨0, 0, [], []⟩).Hsy :=
  sign_unique_tag toyCurve ⟨⟨2, 2⟩, 1⟩ ⟨[⟨3, 3⟩, ⟨2, 2⟩]⟩ [8]
    ((List.range 27).map (· + 1)) ((List.range 27).map (· + 100)) _ _
    (by decide) (by decide)

/-! ### Claim C7: duplicate signer keys -/

/-- A successfully serialized commitment vector has no nil slot. -/
theorem buildAB_no_nil :
    ∀ (l : List (Option I4)) (b : List Nat), buildAB l = some b →
      ∀ i : Nat, l[i]? ≠ some none := by
  intro l
  induction l with
  | nil =>
    intro b _ i h
    cases i <;> exact Option.noConfusion h
  | cons e rest ih =>
    intro b hb i
    cases e with
    | none =>
      rw [show buildAB (none :: rest) = none from rfl] at hb
      exact Option.noConfusion hb
    | some e4 =>
      rw [buildAB] at hb
      cases hrest : buildAB rest with
      | none =>
        rw [hrest] at hb
        simp at hb
      | some tl =>
        cases i with
        | zero =>
          intro h
          rw [List.getElem?_cons_zero] at h
          injection h with h
          exact Option.noConfusion h
        | succ i3 =>
          rw [List.getElem?_cons_succ]
          exact ih tl hrest i3

/-- Claim C7, counterexample: with the signer's key at indices 0 and 1,
`Sign` does not place unblinded commitments at the first matching index
and return a signature; it panics — `id` becomes the last matching index
and the first one's commitments stay nil — despite ample randomness. -/
theorem sign_duplicate_counterexample :
    (⟨[⟨2, 2⟩, ⟨2, 2⟩]⟩ : PublicKeyRing).Ring[0]? =
        some (⟨⟨2, 2⟩, 1⟩ : PrivateKey).pub ∧
    (⟨[⟨2, 2⟩, ⟨2, 2⟩]⟩ : PublicKeyRing).Ring[1]? =
        some (⟨⟨2, 2⟩, 1⟩ : PrivateKey).pub ∧
    Sign toyCurve (List.replicate 9 1) ⟨⟨2, 2⟩, 1⟩ ⟨[⟨2, 2⟩, ⟨2, 2⟩]⟩ [0] =
      .panic :=
  ⟨rfl, rfl, by decide⟩

/-- Claim C7 (amended): when the ring contains the signer's public key at
more than one index, `Sign` never returns a signature: the loop leaves the
commitment slots of every matching index nil, the final assignment fills
only `id` (the last match), and serializing the commitments dereferences a
nil entry — a panic — unless the randomness reader fails first. -/
theorem sign_duplicate_no_signature (cv : Curve) (rand : List Nat)
    (priv : PrivateKey) (R : PublicKeyRing) (m : List Nat) (i1 i2 : Nat)
    (hne : i1 ≠ i2) (hg1 : R.Ring[i1]? = some priv.pub)
    (hg2 : R.Ring[i2]? = some priv.pub) :
    (Sign cv rand priv R m).isOk = false := by
  cases hs : Sign cv rand priv R m with
  | randErr => rfl
  | panic => rfl
  | ok rs =>
    exfalso
    obtain ⟨st, r, rest, abb, hloop, hr, hid, hab, hrs⟩ := Sign_ok_decompose hs
    obtain ⟨E, F, hct, habs, hlE, hlF, hsum, hidx, hnm, hm⟩ :=
      signLoop_spec cv priv.pub priv.D _ _ R.Ring 0 _ st hloop
    have hab2 : st.ab = F := by
      rw [habs]
      rfl
    have hl1 : i1 < R.Ring.length := by
      obtain ⟨hl, _⟩ := List.getElem?_eq_some.mp hg1
      exact hl
    have hl2 : i2 < R.Ring.length := by
      obtain ⟨hl, _⟩ := List.getElem?_eq_some.mp hg2
      exact hl
    have hF1 : F[i1]? = some none := ((hidx i1 hl1).1 hg1).2
    have hF2 : F[i2]? = some none := ((hidx i2 hl2).1 hg2).2
    by_cases hcase : i1 = st.id
    · apply buildAB_no_nil _ abb hab i2
      rw [List.getElem?_set_ne (by omega : st.id ≠ i2), hab2]
      exact hF2
    · apply buildAB_no_nil _ abb hab i1
      rw [List.getElem?_set_ne (by omega : st.id ≠ i1), hab2]
      exact hF1

/-- Claim C7, witness for the amended statement: concrete duplicate toy
ring. -/
theorem sign_duplicate_no_signature_witness :
    (Sign toyCurve (List.replicate 9 1) ⟨⟨2, 2⟩, 1⟩ ⟨[⟨2, 2⟩, ⟨2, 2⟩]⟩
      [0]).isOk = false :=
  sign_duplicate_no_signature toyCurve (List.replicate 9 1) ⟨⟨2, 2⟩, 1⟩
    ⟨[⟨2, 2⟩, ⟨2, 2⟩]⟩ [0] 0 1 (by decide) rfl rfl

/-! ### Claim C4: invariants of a produced signature -/

/-- Sum of the present entries of a challenge vector. -/
def sumCList : List (Option Int) → Int
  | [] => 0
  | none :: rest => sumCList rest
  | some c :: rest => c + sumCList rest

theorem sumCList_map_fst :
    ∀ E : List (Option (Int × Int)),
      sumCList (E.map (Option.map Prod.fst)) = sumCT E := by
  intro E
  induction E with
  | nil => rfl
  | cons e rest ih =>
    cases e with
    | none =>
      show sumCList (none :: rest.map (Option.map Prod.fst)) = sumCT (none :: rest)
      rw [show sumCList (none :: rest.map (Option.map Prod.fst)) =
        sumCList (rest.map (Option.map Prod.fst)) from rfl]
      exact ih
    | some p =>
      show sumCList (some p.1 :: rest.map (Option.map Prod.fst)) =
        sumCT (some p :: rest)
      rw [show sumCList (some p.1 :: rest.map (Option.map Prod.fst)) =
        p.1 + sumCList (rest.map (Option.map Prod.fst)) from rfl]
      rw [show sumCT (some p :: rest) = p.1 + sumCT rest from rfl, ih]

theorem sumCT_set :
    ∀ (E : List (Option (Int × Int))) (i : Nat) (p : Int × Int),
      E[i]? = some none → sumCT (E.set i (some p)) = p.1 + sumCT E := by
  intro E
  induction E with
  | nil =>
    intro i p h
    cases i <;> exact Option.noConfusion h
  | cons e rest ih =>
    intro i p h
    cases i with
    | zero =>
      rw [List.getElem?_cons_zero] at h
      injection h with h
      subst h
      rfl
    | succ i3 =>
      rw [List.getElem?_cons_succ] at h
      cases e with
      | none =>
        show sumCT (none :: rest.set i3 (some p)) = p.1 + sumCT (none :: rest)
        rw [show sumCT (none :: rest.set i3 (some p)) =
          sumCT (rest.set i3 (some p)) from rfl,
          show sumCT (none :: rest) = sumCT rest from rfl]
        exact ih i3 p h
      | some q =>
        show sumCT (some q :: rest.set i3 (some p)) = p.1 + sumCT (some q :: rest)
        rw [show sumCT (some q :: rest.set i3 (some p)) =
          q.1 + sumCT (rest.set i3 (some p)) from rfl,
          show sumCT (some q :: rest) = q.1 + sumCT rest from rfl,
          ih i3 p h]
        ring

/-- Claim C4: every scalar in the `C` and `T` vectors of a signature
returned by `Sign` with the signer's key in the ring lies in `[0, N)`,
and the challenge sum modulo `N` equals the hash integer over the message,
ring bytes and the commitments computed during signing, modulo `N`. -/
theorem sign_invariants (cv : Curve) (priv : PrivateKey) (R : PublicKeyRing)
    (m rand : List Nat) (rs : RingSign) (hN : 2 ≤ cv.N)
    (hmem : priv.pub ∈ R.Ring) (hsig : Sign cv rand priv R m = .ok rs) :
    (∀ e ∈ rs.C, ∃ v, e = some v ∧ 0 ≤ v ∧ v < cv.N) ∧
    (∀ e ∈ rs.T, ∃ v, e = some v ∧ 0 ≤ v ∧ v < cv.N) ∧
    ∃ st r rest abb,
      signLoop cv priv.pub priv.D (hashG cv (m ++ ringBytes R)).1
        (hashG cv (m ++ ringBytes R)).2 R.Ring 0 ⟨rand, 0, 0, [], []⟩ = some st ∧
      randFieldElement cv st.rand = some (r, rest) ∧
      buildAB (st.ab.set st.id (some (idCommit cv (hashG cv (m ++ ringBytes R)).1
        (hashG cv (m ++ ringBytes R)).2 r))) = some abb ∧
      sumCList rs.C % cv.N =
        (bytesToNat (hashq (m ++ ringBytes R ++ abb)) : Int) % cv.N := by
  have hN0 : (0 : Int) < cv.N := by omega
  obtain ⟨st, r, rest, abb, hloop, hr, hid, hab, hrs⟩ := Sign_ok_decompose hsig
  obtain ⟨E, F, hct, habs, hlE, hlF, hsum, hidx, hnm, hm⟩ :=
    signLoop_spec cv priv.pub priv.D _ _ R.Ring 0 _ st hloop
  have hct2 : st.ct = E := by rw [hct]; rfl
  have hab2 : st.ab = F := by rw [habs]; rfl
  have hsum2 : st.sum = sumCT E := by
    rw [hsum]
    show (0 : Int) + sumCT E = sumCT E
    ring
  obtain ⟨ist, histlen, hgetist, hidEq, _⟩ := hm hmem
  have hidEq2 : st.id = ist := by omega
  have hgetid : R.Ring[st.id]? = some priv.pub := by rw [hidEq2]; exact hgetist
  have hEid : E[st.id]? = some none := ((hidx st.id hid).1 hgetid).1
  have hnomatch : ∀ i, i < R.Ring.length → i ≠ st.id →
      R.Ring[i]? ≠ some priv.pub := by
    intro i hlen hne hgm
    have hFi : F[i]? = some none := ((hidx i hlen).1 hgm).2
    apply buildAB_no_nil _ abb hab i
    rw [List.getElem?_set_ne (Ne.symm hne), hab2]
    exact hFi
  have hctlen : st.ct.length = R.Ring.length := by rw [hct2, hlE]
  have hcibound : 0 ≤ (chalPair cv priv st.sum r (m ++ ringBytes R ++ abb)).1 ∧
      (chalPair cv priv st.sum r (m ++ ringBytes R ++ abb)).1 < cv.N := by
    constructor
    · exact Int.emod_nonneg _ (by omega)
    · exact Int.emod_lt_of_pos _ hN0
  have htibound : 0 ≤ (chalPair cv priv st.sum r (m ++ ringBytes R ++ abb)).2 ∧
      (chalPair cv priv st.sum r (m ++ ringBytes R ++ abb)).2 < cv.N := by
    constructor
    · exact Int.emod_nonneg _ (by omega)
    · exact Int.emod_lt_of_pos _ hN0
  have hentry : ∀ (i : Nat) e,
      (st.ct.set st.id (some (chalPair cv priv st.sum r (m ++ ringBytes R ++ abb))))[i]? =
        some e →
      ∃ c t, e = some (c, t) ∧ 0 ≤ c ∧ c < cv.N ∧ 0 ≤ t ∧ t < cv.N := by
    intro i e hie
    by_cases hieq : i = st.id
    · rw [hieq] at hie
      rw [List.getElem?_set_self (by omega : st.id < st.ct.length)] at hie
      injection hie with hie
      exact ⟨_, _, hie.symm, hcibound.1, hcibound.2, htibound.1, htibound.2⟩
    · rw [List.getElem?_set_ne (Ne.symm hieq), hct2] at hie
      have hilen : i < R.Ring.length := by
        obtain ⟨hl, _⟩ := List.getElem?_eq_some.mp hie
        omega
      have hgi : R.Ring[i]? = some R.Ring[i] := List.getElem?_eq_getElem hilen
      have hpne : R.Ring[i] ≠ priv.pub := by
        intro hcon
        exact hnomatch i hilen hieq (by rw [hgi, hcon])
      obtain ⟨c, t, hE, hb, _⟩ := (hidx i hilen).2 R.Ring[i] hgi hpne
      rw [hE] at hie
      injection hie with hie
      obtain ⟨hb1, hb2, hb3, hb4⟩ := hb hN
      exact ⟨c, t, hie.symm, by omega, by omega, by omega, by omega⟩
  subst hrs
  refine ⟨?_, ?_, st, r, rest, abb, hloop, hr, hab, ?_⟩
  · intro e he
    obtain ⟨e2, he2, hfe⟩ := List.mem_map.mp he
    obtain ⟨i, hi⟩ := List.mem_iff_getElem?.mp he2
    obtain ⟨c, t, hect, hc1, hc2, _, _⟩ := hentry i e2 hi
    exact ⟨c, by rw [← hfe, hect]; rfl, hc1, hc2⟩
  · intro e he
    obtain ⟨e2, he2, hfe⟩ := List.mem_map.mp he
    obtain ⟨i, hi⟩ := List.mem_iff_getElem?.mp he2
    obtain ⟨c, t, hect, _, _, ht1, ht2⟩ := hentry i e2 hi
    exact ⟨t, by rw [← hfe, hect]; rfl, ht1, ht2⟩
  · show sumCList ((st.ct.set st.id
      (some (chalPair cv priv st.sum r (m ++ ringBytes R ++ abb)))).map
        (Option.map Prod.fst)) % cv.N = _
    rw [sumCList_map_fst, sumCT_set st.ct st.id _ (by rw [hct2]; exact hEid),
      hct2, ← hsum2]
    show (challengeAtId (bytesToNat (hashq (m ++ ringBytes R ++ abb)) : Int)
      st.sum cv.N + st.sum) % cv.N = _
    rw [challengeAtId, Int.emod_add_emod, sub_add_cancel]

/-! ### Claim C1: completeness of Verify on signatures from Sign -/

theorem scalarMult_nat (cv : Curve) (ax : CurveAxioms cv) (x y : Int) (k : Nat) :
    cv.ScalarMult x y (intBytes (k : Int)) = kmul cv (x, y) k := by
  rw [ax.bytes_mul, intBytes, Int.natAbs_ofNat, bytesToNat_natToBytes]

theorem scalarBase_nat (cv : Curve) (ax : CurveAxioms cv) (k : Nat) :
    cv.ScalarBaseMult (intBytes (k : Int)) = kbase cv k := by
  rw [ax.bytes_base, intBytes, Int.natAbs_ofNat, bytesToNat_natToBytes]

theorem kmul_eta (cv : Curve) (P : Int × Int) (k : Nat) :
    kmul cv (P.1, P.2) k = kmul cv P k := rfl

theorem onC_pair (cv : Curve) (hx hy : Int) (h : cv.IsOnCurve hx hy = true) :
    onC cv (hx, hy) := h

theorem toNat_emod_eq (a n : Int) (ha : 0 ≤ a) (hn : 0 < n) :
    (a % n).toNat = a.toNat % n.toNat := by
  obtain ⟨an, rfl⟩ := Int.eq_ofNat_of_zero_le ha
  obtain ⟨nn, rfl⟩ := Int.eq_ofNat_of_zero_le hn.le
  norm_cast

/-- The verifier's recomputed commitment at a non-signer index equals the
signer's blinded commitment: `g^t · y^c` is shared syntactically, and
`H^t · τ^c = H^{(D·c + t) mod N}` by the group laws, where `τ = H^D`. -/
theorem vCommit_eq_commitFor (cv : Curve) (ax : CurveAxioms cv) (hN : 0 < cv.N)
    (hx hy tx ty D : Int) (p : PublicKey) (c t : Int)
    (hHon : cv.IsOnCurve hx hy = true)
    (htau : (tx, ty) = cv.ScalarMult hx hy (intBytes D))
    (hD : 0 ≤ D) (hc : 0 ≤ c) (ht : 0 ≤ t) :
    vCommit cv hx hy tx ty p c t = commitFor cv D hx hy p c t := by
  obtain ⟨Dn, rfl⟩ := Int.eq_ofNat_of_zero_le hD
  obtain ⟨cn, rfl⟩ := Int.eq_ofNat_of_zero_le hc
  obtain ⟨tn, rfl⟩ := Int.eq_ofNat_of_zero_le ht
  have hτ : (tx, ty) = kmul cv (hx, hy) Dn := by
    rw [htau, scalarMult_nat cv ax]
  have htx : tx = (kmul cv (hx, hy) Dn).1 := by rw [← hτ]
  have hty : ty = (kmul cv (hx, hy) Dn).2 := by rw [← hτ]
  have hb : cv.Add (cv.ScalarMult hx hy (intBytes (tn : Int))).1
      (cv.ScalarMult hx hy (intBytes (tn : Int))).2
      (cv.ScalarMult tx ty (intBytes (cn : Int))).1
      (cv.ScalarMult tx ty (intBytes (cn : Int))).2 =
      cv.ScalarMult hx hy (intBytes (((Dn : Int) * cn + tn) % cv.N)) := by
    have hw : (0 : Int) ≤ ((Dn : Int) * cn + tn) % cv.N :=
      Int.emod_nonneg _ (by omega)
    obtain ⟨wn, hwn⟩ := Int.eq_ofNat_of_zero_le hw
    rw [htx, hty]
    simp only [scalarMult_nat cv ax, kmul_eta]
    rw [ax.mul_mul _ _ _ (onC_pair cv hx hy hHon),
      ax.add_mul _ _ _ (onC_pair cv hx hy hHon), hwn, scalarMult_nat cv ax,
      ax.mul_mod _ _ (onC_pair cv hx hy hHon)]
    congr 1
    have h2 : ((tn + Dn * cn : Nat) : Int) % ((cv.N.toNat : Nat) : Int) = (wn : Int) := by
      rw [show ((cv.N.toNat : Nat) : Int) = cv.N from by omega, ← hwn]
      push_cast
      ring_nf
    exact_mod_cast h2
  simp only [vCommit, commitFor]
  rw [hb]

/-- The verifier's recomputed commitment at the signer's index equals the
unblinded commitments: with `t = (r − D·c) mod N`, the group laws give
`g^t · y^c = g^r` and `H^t · τ^c = H^r`. -/
theorem vCommit_eq_idCommit (cv : Curve) (ax : CurveAxioms cv) (hN : 0 < cv.N)
    (hx hy tx ty D r ci ti : Int) (pub : PublicKey)
    (hHon : cv.IsOnCurve hx hy = true)
    (htau : (tx, ty) = cv.ScalarMult hx hy (intBytes D))
    (hpubval : cv.ScalarBaseMult (intBytes D) = (pub.X, pub.Y))
    (hD : 0 ≤ D) (hr : 0 ≤ r) (hci : 0 ≤ ci)
    (hti : ti = (r - D * ci) % cv.N) :
    vCommit cv hx hy tx ty pub ci ti = idCommit cv hx hy r := by
  have hti0 : 0 ≤ ti := hti ▸ Int.emod_nonneg _ (by omega)
  obtain ⟨Dn, hDn⟩ := Int.eq_ofNat_of_zero_le hD
  obtain ⟨rn, hrn⟩ := Int.eq_ofNat_of_zero_le hr
  obtain ⟨cin, hcin⟩ := Int.eq_ofNat_of_zero_le hci
  obtain ⟨tin, htin⟩ := Int.eq_ofNat_of_zero_le hti0
  have hkey : ((tin + Dn * cin : Nat) : Int) % cv.N = (rn : Int) % cv.N := by
    push_cast
    rw [← htin, ← hcin, ← hDn, ← hrn, hti, Int.emod_add_emod, sub_add_cancel]
  have hkeyN : (tin + Dn * cin) % cv.N.toNat = rn % cv.N.toNat := by
    have h2 : ((tin + Dn * cin : Nat) : Int) % ((cv.N.toNat : Nat) : Int) =
        ((rn : Nat) : Int) % ((cv.N.toNat : Nat) : Int) := by
      rw [show ((cv.N.toNat : Nat) : Int) = cv.N from by omega]
      exact hkey
    exact_mod_cast h2
  have hτ : (tx, ty) = kmul cv (hx, hy) Dn := by
    rw [htau, hDn, scalarMult_nat cv ax]
  have htx : tx = (kmul cv (hx, hy) Dn).1 := by rw [← hτ]
  have hty : ty = (kmul cv (hx, hy) Dn).2 := by rw [← hτ]
  have hpub : (pub.X, pub.Y) = kbase cv Dn := by
    rw [← hpubval, hDn, scalarBase_nat cv ax]
  have hpX : pub.X = (kbase cv Dn).1 := by rw [← hpub]
  have hpY : pub.Y = (kbase cv Dn).2 := by rw [← hpub]
  have ha : cv.Add (cv.ScalarBaseMult (intBytes ti)).1
      (cv.ScalarBaseMult (intBytes ti)).2
      (cv.ScalarMult pub.X pub.Y (intBytes ci)).1
      (cv.ScalarMult pub.X pub.Y (intBytes ci)).2 =
      cv.ScalarBaseMult (intBytes r) := by
    rw [htin, hcin, hrn, hpX, hpY]
    simp only [scalarBase_nat cv ax, scalarMult_nat cv ax, kmul_eta]
    rw [show kmul cv ((kbase cv Dn).1, (kbase cv Dn).2) cin =
      kmul cv (kbase cv Dn) cin from rfl]
    rw [ax.mul_base, ax.add_base, ax.base_mod (tin + Dn * cin), hkeyN,
      ← ax.base_mod rn]
  have hb : cv.Add (cv.ScalarMult hx hy (intBytes ti)).1
      (cv.ScalarMult hx hy (intBytes ti)).2
      (cv.ScalarMult tx ty (intBytes ci)).1
      (cv.ScalarMult tx ty (intBytes ci)).2 =
      cv.ScalarMult hx hy (intBytes r) := by
    rw [htin, hcin, hrn, htx, hty]
    simp only [scalarMult_nat cv ax, kmul_eta]
    rw [ax.mul_mul _ _ _ (onC_pair cv hx hy hHon),
      ax.add_mul _ _ _ (onC_pair cv hx hy hHon),
      ax.mul_mod _ _ (onC_pair cv hx hy hHon), hkeyN,
      ← ax.mul_mod _ _ (onC_pair cv hx hy hHon)]
  simp only [vCommit, idCommit]
  rw [ha, hb]

/-- Sum of the first components of the extracted scalar pairs. -/
def sumW : List (Int × Int) → Int
  | [] => 0
  | p :: rest => p.1 + sumW rest

/-- When every indexed scalar is present and in range, the `Verify` loop
completes, summing the challenges and recomputing one commitment pair per
ring member. -/
theorem verifyLoop_done (cv : Curve) (hx hy tx ty : Int) (Cs Ts : List (Option Int)) :
    ∀ (L : List PublicKey) (W : List (Int × Int)) (j : Nat) (sum : Int)
      (acc : List I4),
      W.length = L.length →
      (∀ i, i < L.length → ∃ c t, W[i]? = some (c, t) ∧
        Cs[j + i]? = some (some c) ∧ c < cv.N ∧
        Ts[j + i]? = some (some t) ∧ t < cv.N) →
      verifyLoop cv hx hy tx ty Cs Ts L j sum acc =
        .done (sum + sumW W)
          (acc ++ (L.zip W).map
            (fun pw => vCommit cv hx hy tx ty pw.1 pw.2.1 pw.2.2)) := by
  intro L
  induction L with
  | nil =>
    intro W j sum acc hlen _
    have hW : W = [] := List.eq_nil_of_length_eq_zero (by simpa using hlen)
    subst hW
    show VRes.done sum acc = _
    rw [show sumW [] = 0 from rfl, add_zero]
    simp
  | cons p rest ih =>
    intro W j sum acc hlen hidx
    obtain ⟨c, t, hW0, hC0, hcN, hT0, htN⟩ := hidx 0 (by simp)
    rw [Nat.add_zero] at hC0 hT0
    cases W with
    | nil => exact absurd hlen (by simp)
    | cons w W1 =>
      rw [List.getElem?_cons_zero] at hW0
      injection hW0 with hW0
      subst hW0
      simp only [verifyLoop, hC0]
      rw [if_neg (by omega)]
      simp only [hT0]
      rw [if_neg (by omega)]
      have hsh : ∀ i, i < rest.length → ∃ c2 t2, W1[i]? = some (c2, t2) ∧
          Cs[j + 1 + i]? = some (some c2) ∧ c2 < cv.N ∧
          Ts[j + 1 + i]? = some (some t2) ∧ t2 < cv.N := by
        intro i hi
        obtain ⟨c2, t2, h1, h2, h3, h4, h5⟩ := hidx (i + 1) (by simpa using hi)
        rw [List.getElem?_cons_succ] at h1
        refine ⟨c2, t2, h1, ?_, h3, ?_, h5⟩
        · rw [show j + 1 + i = j + (i + 1) from by omega]
          exact h2
        · rw [show j + 1 + i = j + (i + 1) from by omega]
          exact h4
      rw [ih W1 (j + 1) (sum + c) (acc ++ [vCommit cv hx hy tx ty p c t])
        (by simpa using hlen) hsh]
      congr 1
      · rw [show sumW ((c, t) :: W1) = c + sumW W1 from rfl]
        ring
      · rw [List.append_assoc]
        rfl

/-- Default commitment quadruple. -/
def d4 : I4 := ((0 : Int), (0 : Int), (0 : Int), (0 : Int))

theorem buildAB_values :
    ∀ (l : List (Option I4)) (b : List Nat), buildAB l = some b →
      b = abBytes (l.map (fun e => e.getD d4)) := by
  intro l
  induction l with
  | nil =>
    intro b hb
    rw [buildAB] at hb
    injection hb with hb
    rw [← hb]
    rfl
  | cons e rest ih =>
    intro b hb
    cases e with
    | none =>
      rw [show buildAB (none :: rest) = none from rfl] at hb
      exact Option.noConfusion hb
    | some e4 =>
      rw [buildAB] at hb
      cases hrest : buildAB rest with
      | none =>
        rw [hrest] at hb
        simp at hb
      | some tl =>
        rw [hrest] at hb
        injection hb with hb
        rw [← hb, ih tl hrest]
        show i4Bytes e4 ++ abBytes (rest.map _) = abBytes ((some e4 :: rest).map _)
        simp [abBytes]

theorem sumW_map_getD :
    ∀ E : List (Option (Int × Int)),
      sumW (E.map (fun e => e.getD (0, 0))) = sumCT E := by
  intro E
  induction E with
  | nil => rfl
  | cons e rest ih =>
    cases e with
    | none =>
      show sumW ((0, 0) :: rest.map _) = sumCT (none :: rest)
      rw [show sumW ((0, 0) :: rest.map (fun e => e.getD (0, 0))) =
        (0 : Int) + sumW (rest.map (fun e => e.getD (0, 0))) from rfl, ih]
      rw [show sumCT (none :: rest) = sumCT rest from rfl]
      ring
    | some q =>
      show sumW (q :: rest.map _) = sumCT (some q :: rest)
      rw [show sumW (q :: rest.map (fun e => e.getD (0, 0))) =
        q.1 + sumW (rest.map (fun e => e.getD (0, 0))) from rfl, ih]
      rfl

/-- Claim C1 (amended): on a curve adapter satisfying the group laws, a
signature produced by `Sign` for a valid private key whose public key is
in the ring passes `Verify` — provided the tag coordinates are nonzero and
below `N`, the range check `Verify` performs (reproducing the reference's
quirk; the counterexample shows the claim fails without this proviso). -/
theorem sign_verify_complete (cv : Curve) (ax : CurveAxioms cv) (hN : 2 ≤ cv.N)
    (priv : PrivateKey) (R : PublicKeyRing) (m rand : List Nat) (rs : RingSign)
    (hD : 0 ≤ priv.D)
    (hpubval : cv.ScalarBaseMult (intBytes priv.D) = (priv.pub.X, priv.pub.Y))
    (hmem : priv.pub ∈ R.Ring)
    (hsig : Sign cv rand priv R m = .ok rs)
    (hx0 : rs.Hsx ≠ 0) (hy0 : rs.Hsy ≠ 0)
    (hxN : rs.Hsx < cv.N) (hyN : rs.Hsy < cv.N) :
    Verify cv R m rs = some true := by
  have hN0 : (0 : Int) < cv.N := by omega
  obtain ⟨st, r, rest, abb, hloop, hr, hid, hab, hrs⟩ := Sign_ok_decompose hsig
  obtain ⟨E, F, hct, habs, hlE, hlF, hsum, hidx, hnm, hm⟩ :=
    signLoop_spec cv priv.pub priv.D _ _ R.Ring 0 _ st hloop
  have hct2 : st.ct = E := by rw [hct]; rfl
  have hab2 : st.ab = F := by rw [habs]; rfl
  have hsum2 : st.sum = sumCT E := by
    rw [hsum]
    show (0 : Int) + sumCT E = sumCT E
    ring
  obtain ⟨ist, histlen, hgetist, hidEq, _⟩ := hm hmem
  have hidEq2 : st.id = ist := by omega
  have hgetid : R.Ring[st.id]? = some priv.pub := by rw [hidEq2]; exact hgetist
  have hEid : E[st.id]? = some none := ((hidx st.id hid).1 hgetid).1
  have hnomatch : ∀ i, i < R.Ring.length → i ≠ st.id →
      R.Ring[i]? ≠ some priv.pub := by
    intro i hlen hne hgm
    have hFi : F[i]? = some none := ((hidx i hlen).1 hgm).2
    apply buildAB_no_nil _ abb hab i
    rw [List.getElem?_set_ne (Ne.symm hne), hab2]
    exact hFi
  have hctlen : st.ct.length = R.Ring.length := by rw [hct2, hlE]
  have hablen : st.ab.length = R.Ring.length := by rw [hab2, hlF]
  have hrbound := randFE_bound hN hr
  have hHon : cv.IsOnCurve (hashG cv (m ++ ringBytes R)).1
      (hashG cv (m ++ ringBytes R)).2 = true := by
    have h1 : hashG cv (m ++ ringBytes R) =
        kbase cv (bytesToNat (sha256 (m ++ ringBytes R))) := by
      rw [hashG, ax.bytes_base]
    rw [h1]
    exact ax.on_base _
  have htauval : (rs.Hsx, rs.Hsy) = cv.ScalarMult (hashG cv (m ++ ringBytes R)).1
      (hashG cv (m ++ ringBytes R)).2 (intBytes priv.D) := by
    rw [hrs]
    rfl
  have hTauOn : cv.IsOnCurve rs.Hsx rs.Hsy = true := by
    obtain ⟨Dn, hDn⟩ := Int.eq_ofNat_of_zero_le hD
    have h2 : (rs.Hsx, rs.Hsy) = kmul cv ((hashG cv (m ++ ringBytes R)).1,
        (hashG cv (m ++ ringBytes R)).2) Dn := by
      rw [htauval, hDn, scalarMult_nat cv ax]
    have h3 := ax.on_mul ((hashG cv (m ++ ringBytes R)).1,
      (hashG cv (m ++ ringBytes R)).2) Dn (onC_pair _ _ _ hHon)
    rw [onC] at h3
    rw [show rs.Hsx = (kmul cv ((hashG cv (m ++ ringBytes R)).1,
        (hashG cv (m ++ ringBytes R)).2) Dn).1 from by rw [← h2],
      show rs.Hsy = (kmul cv ((hashG cv (m ++ ringBytes R)).1,
        (hashG cv (m ++ ringBytes R)).2) Dn).2 from by rw [← h2]]
    exact h3
  have hC : rs.C = (st.ct.set st.id
      (some (chalPair cv priv st.sum r (m ++ ringBytes R ++ abb)))).map
        (Option.map Prod.fst) := by rw [hrs]
  have hT : rs.T = (st.ct.set st.id
      (some (chalPair cv priv st.sum r (m ++ ringBytes R ++ abb)))).map
        (Option.map Prod.snd) := by rw [hrs]
  have hcibound : 0 ≤ (chalPair cv priv st.sum r (m ++ ringBytes R ++ abb)).1 ∧
      (chalPair cv priv st.sum r (m ++ ringBytes R ++ abb)).1 < cv.N :=
    ⟨Int.emod_nonneg _ (by omega), Int.emod_lt_of_pos _ hN0⟩
  have htibound : 0 ≤ (chalPair cv priv st.sum r (m ++ ringBytes R ++ abb)).2 ∧
      (chalPair cv priv st.sum r (m ++ ringBytes R ++ abb)).2 < cv.N :=
    ⟨Int.emod_nonneg _ (by omega), Int.emod_lt_of_pos _ hN0⟩
  have hfacts : ∀ i, i < R.Ring.length → ∃ p c t,
      R.Ring[i]? = some p ∧
      (st.ct.set st.id
        (some (chalPair cv priv st.sum r (m ++ ringBytes R ++ abb))))[i]? =
          some (some (c, t)) ∧
      0 ≤ c ∧ c < cv.N ∧ 0 ≤ t ∧ t < cv.N ∧
      (st.ab.set st.id (some (idCommit cv (hashG cv (m ++ ringBytes R)).1
        (hashG cv (m ++ ringBytes R)).2 r)))[i]? =
          some (some (vCommit cv (hashG cv (m ++ ringBytes R)).1
            (hashG cv (m ++ ringBytes R)).2 rs.Hsx rs.Hsy p c t)) := by
    intro i hi
    by_cases hieq : i = st.id
    · subst hieq
      refine ⟨priv.pub,
        (chalPair cv priv st.sum r (m ++ ringBytes R ++ abb)).1,
        (chalPair cv priv st.sum r (m ++ ringBytes R ++ abb)).2,
        hgetid, ?_, hcibound.1, hcibound.2, htibound.1, htibound.2, ?_⟩
      · rw [List.getElem?_set_self (by omega : st.id < st.ct.length)]
      · rw [List.getElem?_set_self (by omega : st.id < st.ab.length)]
        have hvid := vCommit_eq_idCommit cv ax hN0
          (hashG cv (m ++ ringBytes R)).1 (hashG cv (m ++ ringBytes R)).2
          rs.Hsx rs.Hsy priv.D r
          (chalPair cv priv st.sum r (m ++ ringBytes R ++ abb)).1
          (chalPair cv priv st.sum r (m ++ ringBytes R ++ abb)).2
          priv.pub hHon htauval hpubval hD (by omega) hcibound.1 rfl
        rw [hvid]
    · obtain ⟨hilen2, _⟩ : i < R.Ring.length ∧ True := ⟨hi, trivial⟩
      have hgi : R.Ring[i]? = some (R.Ring[i]) := List.getElem?_eq_getElem hi
      have hpne : R.Ring[i] ≠ priv.pub := by
        intro hcon
        exact hnomatch i hi hieq (by rw [hgi, hcon])
      obtain ⟨c, t, hE, hb, hF⟩ := (hidx i hi).2 (R.Ring[i]) hgi hpne
      obtain ⟨hb1, hb2, hb3, hb4⟩ := hb hN
      refine ⟨R.Ring[i], c, t, hgi, ?_, by omega, by omega, by omega, by omega, ?_⟩
      · rw [List.getElem?_set_ne (Ne.symm hieq), hct2]
        exact hE
      · rw [List.getElem?_set_ne (Ne.symm hieq), hab2, hF]
        have hvc := vCommit_eq_commitFor cv ax hN0
          (hashG cv (m ++ ringBytes R)).1 (hashG cv (m ++ ringBytes R)).2
          rs.Hsx rs.Hsy priv.D (R.Ring[i]) c t hHon htauval hD
          (by omega) (by omega)
        rw [hvc]
  simp only [Verify]
  rw [if_neg (by have := List.length_pos_of_mem hmem; omega)]
  rw [if_neg (not_or.mpr ⟨hx0, hy0⟩)]
  rw [if_neg (not_or.mpr ⟨by omega, by omega⟩)]
  rw [if_neg (by simp [hTauOn])]
  have hWlen : ((st.ct.set st.id
      (some (chalPair cv priv st.sum r (m ++ ringBytes R ++ abb)))).map
        (fun e => e.getD ((0 : Int), (0 : Int)))).length = R.Ring.length := by
    rw [List.length_map, List.length_set, hctlen]
  have hloophyp : ∀ i, i < R.Ring.length → ∃ c t,
      ((st.ct.set st.id
        (some (chalPair cv priv st.sum r (m ++ ringBytes R ++ abb)))).map
          (fun e => e.getD ((0 : Int), (0 : Int))))[i]? = some (c, t) ∧
      rs.C[0 + i]? = some (some c) ∧ c < cv.N ∧
      rs.T[0 + i]? = some (some t) ∧ t < cv.N := by
    intro i hi
    obtain ⟨p, c, t, hgi, hcti, hc0, hcN2, ht0, htN2, habi⟩ := hfacts i hi
    refine ⟨c, t, ?_, ?_, hcN2, ?_, htN2⟩
    · rw [List.getElem?_map, hcti]
      rfl
    · rw [Nat.zero_add, hC, List.getElem?_map, hcti]
      rfl
    · rw [Nat.zero_add, hT, List.getElem?_map, hcti]
      rfl
  have hloopdone := verifyLoop_done cv (hashG cv (m ++ ringBytes R)).1
    (hashG cv (m ++ ringBytes R)).2 rs.Hsx rs.Hsy rs.C rs.T R.Ring
    ((st.ct.set st.id
      (some (chalPair cv priv st.sum r (m ++ ringBytes R ++ abb)))).map
        (fun e => e.getD ((0 : Int), (0 : Int)))) 0 0 [] hWlen hloophyp
  have hablists : (R.Ring.zip ((st.ct.set st.id
      (some (chalPair cv priv st.sum r (m ++ ringBytes R ++ abb)))).map
        (fun e => e.getD ((0 : Int), (0 : Int))))).map
      (fun pw => vCommit cv (hashG cv (m ++ ringBytes R)).1
        (hashG cv (m ++ ringBytes R)).2 rs.Hsx rs.Hsy pw.1 pw.2.1 pw.2.2) =
      (st.ab.set st.id (some (idCommit cv (hashG cv (m ++ ringBytes R)).1
        (hashG cv (m ++ ringBytes R)).2 r))).map (fun e => e.getD d4) := by
    apply List.ext_getElem?
    intro i
    by_cases hi : i < R.Ring.length
    · obtain ⟨p, c, t, hgi, hcti, hc0, hcN2, ht0, htN2, habi⟩ := hfacts i hi
      have hWi : ((st.ct.set st.id
          (some (chalPair cv priv st.sum r (m ++ ringBytes R ++ abb)))).map
            (fun e => e.getD ((0 : Int), (0 : Int))))[i]? = some (c, t) := by
        rw [List.getElem?_map, hcti]
        rfl
      have hzip : (R.Ring.zip ((st.ct.set st.id
          (some (chalPair cv priv st.sum r (m ++ ringBytes R ++ abb)))).map
            (fun e => e.getD ((0 : Int), (0 : Int)))))[i]? = some (p, (c, t)) := by
        rw [List.getElem?_zip_eq_some]
        exact ⟨hgi, hWi⟩
      rw [List.getElem?_map, hzip, List.getElem?_map, habi]
      rfl
    · rw [List.getElem?_map, List.getElem?_map,
        List.getElem?_eq_none (by
          rw [List.length_zip, hWlen]
          omega),
        List.getElem?_eq_none (by
          rw [List.length_set, hablen]
          omega)]
      rfl
  have hfinal : acceptCheck (0 + sumW ((st.ct.set st.id
      (some (chalPair cv priv st.sum r (m ++ ringBytes R ++ abb)))).map
        (fun e => e.getD ((0 : Int), (0 : Int)))))
      ((bytesToNat (hashq (m ++ ringBytes R ++ abBytes ([] ++
        (R.Ring.zip ((st.ct.set st.id
          (some (chalPair cv priv st.sum r (m ++ ringBytes R ++ abb)))).map
            (fun e => e.getD ((0 : Int), (0 : Int))))).map
          (fun pw => vCommit cv (hashG cv (m ++ ringBytes R)).1
            (hashG cv (m ++ ringBytes R)).2 rs.Hsx rs.Hsy
            pw.1 pw.2.1 pw.2.2)))) : Int)) cv.N = true := by
    rw [List.nil_append, hablists, ← buildAB_values _ abb hab, sumW_map_getD,
      sumCT_set st.ct st.id _ (by rw [hct2]; exact hEid), hct2, ← hsum2]
    show acceptCheck (0 + (challengeAtId
      (bytesToNat (hashq (m ++ ringBytes R ++ abb)) : Int) st.sum cv.N + st.sum))
      (bytesToNat (hashq (m ++ ringBytes R ++ abb)) : Int) cv.N = true
    simp only [acceptCheck, challengeAtId]
    rw [show (0 : Int) + (((bytesToNat (hashq (m ++ ringBytes R ++ abb)) : Int)
        - st.sum) % cv.N + st.sum) =
      ((bytesToNat (hashq (m ++ ringBytes R ++ abb)) : Int) - st.sum) % cv.N
        + st.sum from by ring]
    rw [Int.emod_add_emod, sub_add_cancel]
    exact beq_self_eq_true _
  rw [hloopdone]
  show some (acceptCheck (0 + sumW ((st.ct.set st.id
      (some (chalPair cv priv st.sum r (m ++ ringBytes R ++ abb)))).map
        (fun e => e.getD ((0 : Int), (0 : Int)))))
      ((bytesToNat (hashq (m ++ ringBytes R ++ abBytes ([] ++
        (R.Ring.zip ((st.ct.set st.id
          (some (chalPair cv priv st.sum r (m ++ ringBytes R ++ abb)))).map
            (fun e => e.getD ((0 : Int), (0 : Int))))).map
          (fun pw => vCommit cv (hashG cv (m ++ ringBytes R)).1
            (hashG cv (m ++ ringBytes R)).2 rs.Hsx rs.Hsy
            pw.1 pw.2.1 pw.2.2)))) : Int)) cv.N) = some true
  rw [hfinal]

set_option maxRecDepth 100000 in
/-- Claim C1, counterexample to the claim as stated: on the toy adapter
(which satisfies the group laws), a valid private key whose public key is
in the ring signs successfully, yet `Verify` returns `false` — the tag
coordinates equal `N = 5`, so the range check rejects the signature. -/
theorem sign_verify_complete_counterexample :
    CurveAxioms toyCurve ∧ 2 ≤ toyCurve.N ∧
    0 ≤ (⟨⟨3, 3⟩, 2⟩ : PrivateKey).D ∧
    toyCurve.ScalarBaseMult (intBytes (⟨⟨3, 3⟩, 2⟩ : PrivateKey).D) =
      ((⟨⟨3, 3⟩, 2⟩ : PrivateKey).pub.X, (⟨⟨3, 3⟩, 2⟩ : PrivateKey).pub.Y) ∧
    (⟨⟨3, 3⟩, 2⟩ : PrivateKey).pub ∈ (⟨[⟨3, 3⟩]⟩ : PublicKeyRing).Ring ∧
    signThenVerify toyCurve (List.replicate 9 1) ⟨⟨3, 3⟩, 2⟩ ⟨[⟨3, 3⟩]⟩ [5] =
      some (some false) :=
  ⟨toyCurveAxioms, by decide, by decide, by decide, by decide, by decide⟩

set_option maxRecDepth 100000 in
/-- Claim C1, witness for the amended statement: a toy signature whose tag
passes the range check verifies. -/
theorem sign_verify_complete_witness :
    Verify toyCurve ⟨[⟨2, 2⟩]⟩ [] ⟨3, 3, [some 1], [some 1]⟩ = some true :=
  sign_verify_complete toyCurve toyCurveAxioms (by decide) ⟨⟨2, 2⟩, 1⟩
    ⟨[⟨2, 2⟩]⟩ [] (List.replicate 9 1) ⟨3, 3, [some 1], [some 1]⟩
    (by decide) (by decide) (by decide) (by decide) (by decide) (by decide)
    (by decide) (by decide)

set_option maxRecDepth 100000 in
/-- Claim C4, witness: a concrete two-member toy run; the produced
signature is `(4, 4, [2, 0], [3, 4])`. -/
theorem sign_invariants_witness :
    (∀ e ∈ (⟨4, 4, [some 2, some 0], [some 3, some 4]⟩ : RingSign).C,
        ∃ v, e = some v ∧ 0 ≤ v ∧ v < toyCurve.N) ∧
    (∀ e ∈ (⟨4, 4, [some 2, some 0], [some 3, some 4]⟩ : RingSign).T,
        ∃ v, e = some v ∧ 0 ≤ v ∧ v < toyCurve.N) ∧
    ∃ st r rest abb,
      signLoop toyCurve (⟨⟨2, 2⟩, 1⟩ : PrivateKey).pub
        (⟨⟨2, 2⟩, 1⟩ : PrivateKey).D
        (hashG toyCurve ([8] ++ ringBytes ⟨[⟨3, 3⟩, ⟨2, 2⟩]⟩)).1
        (hashG toyCurve ([8] ++ ringBytes ⟨[⟨3, 3⟩, ⟨2, 2⟩]⟩)).2
        (⟨[⟨3, 3⟩, ⟨2, 2⟩]⟩ : PublicKeyRing).Ring 0
        ⟨(List.range 27).map (· + 1), 0, 0, [], []⟩ = some st ∧
      randFieldElement toyCurve st.rand = some (r, rest) ∧
      buildAB (st.ab.set st.id (some (idCommit toyCurve
        (hashG toyCurve ([8] ++ ringBytes ⟨[⟨3, 3⟩, ⟨2, 2⟩]⟩)).1
        (hashG toyCurve ([8] ++ ringBytes ⟨[⟨3, 3⟩, ⟨2, 2⟩]⟩)).2 r))) =
          some abb ∧
      sumCList (⟨4, 4, [some 2, some 0], [some 3, some 4]⟩ : RingSign).C %
          toyCurve.N =
        (bytesToNat (hashq ([8] ++ ringBytes ⟨[⟨3, 3⟩, ⟨2, 2⟩]⟩ ++ abb)) : Int) %
          toyCurve.N :=
  sign_invariants toyCurve ⟨⟨2, 2⟩, 1⟩ ⟨[⟨3, 3⟩, ⟨2, 2⟩]⟩ [8]
    ((List.range 27).map (· + 1)) ⟨4, 4, [some 2, some 0], [some 3, some 4]⟩
    (by decide) (by decide) (by decide)
